import Mathlib

/-
Verification of the natural-language specification of the `release-creator`
repository (a press-release generator built on top of a ranking-site scraper)
against a shallow Lean embedding of its Python source.

The embedding covers:
  * `streamlit-app/analyzer.py` — company-name normalization
    (`normalize_company_name`), consecutive-win streak computation
    (`HistoricalAnalyzer._calc_consecutive_wins`), tie-aware win counting
    (`_count_wins_from_year_data`, `_calc_most_wins`) and the score-gap
    topic rule (`TopicsAnalyzer._analyze_score_difference`);
  * `streamlit-app/scraper.py` — the ranking-page extraction pipeline
    (`OriconScraper._fetch_ranking_page`, `_extract_ranking_data`,
    `_suggest_alternative_urls`);
  * `streamlit-app/src/scraping/url_resolver.py` — slug-based URL
    construction (`URLResolver._build_url_prefix`, `_infer_url_from_slug`);
  * `streamlit-app/src/data_access/master_data_loader.py` — the master-data
    load / checksum-verification / backup-fallback logic.

Conventions of the embedding:
  * Python dicts are association lists (`List (k × v)`); Python preserves
    insertion order, which the lists model directly.
  * Python sets are duplicate-free lists in insertion order.
  * Scores (Python floats compared only with `==`, `-` and threshold
    comparisons here) are modeled as `ℚ`; absent values (`None` / missing
    keys) as `Option`.
  * `list.sort(key=...)` (Timsort, stable) is modeled by the stable
    insertion sort `pySort` below.
  * Exceptions that the code catches are modeled with `Except` / `Option`
    at the boundary where the corresponding `try` block sits.
-/

/-! ## Stable sort, modelling Python's `list.sort` -/

/-- Stable insert: place `x` after every element `y` of the (sorted) list
with `le y x`, exactly as Python's stable sort orders equal keys. -/
def pyInsert (le : α → α → Bool) (x : α) : List α → List α
  | [] => [x]
  | y :: ys => if le y x then y :: pyInsert le x ys else x :: y :: ys

/-- Stable sort by the Boolean total preorder `le`; models Python's
`list.sort(key=...)` where `le a b` means "key of `a` ≤ key of `b`". -/
def pySort (le : α → α → Bool) (l : List α) : List α :=
  l.foldl (fun acc x => pyInsert le x acc) []

/-! ## Character-level machinery for `normalize_company_name` (analyzer.py 75-108)

Python's `str.strip()` and the regex class `[\s　]` both recognise exactly the
code points for which `Py_UNICODE_ISSPACE` holds (U+3000 is already among
them), so a single predicate models both. -/

/-- Unicode whitespace as recognised by Python's `str.strip()` / `re` `\s`. -/
def isPySpace (c : Char) : Bool :=
  let n := c.toNat
  decide ((9 ≤ n ∧ n ≤ 13) ∨ (28 ≤ n ∧ n ≤ 31) ∨ n = 32 ∨ n = 0x85 ∨ n = 0xA0 ∨
    n = 0x1680 ∨ (0x2000 ≤ n ∧ n ≤ 0x200A) ∨ n = 0x2028 ∨ n = 0x2029 ∨ n = 0x202F ∨
    n = 0x205F ∨ n = 0x3000)

/-- The `str.maketrans` table of analyzer.py 93-96: full-width alphanumerics
to their half-width (ASCII) counterparts. -/
def zenHanTable : List (Char × Char) :=
  [('Ａ', 'A'), ('Ｂ', 'B'), ('Ｃ', 'C'), ('Ｄ', 'D'), ('Ｅ', 'E'), ('Ｆ', 'F'),
   ('Ｇ', 'G'), ('Ｈ', 'H'), ('Ｉ', 'I'), ('Ｊ', 'J'), ('Ｋ', 'K'), ('Ｌ', 'L'),
   ('Ｍ', 'M'), ('Ｎ', 'N'), ('Ｏ', 'O'), ('Ｐ', 'P'), ('Ｑ', 'Q'), ('Ｒ', 'R'),
   ('Ｓ', 'S'), ('Ｔ', 'T'), ('Ｕ', 'U'), ('Ｖ', 'V'), ('Ｗ', 'W'), ('Ｘ', 'X'),
   ('Ｙ', 'Y'), ('Ｚ', 'Z'),
   ('ａ', 'a'), ('ｂ', 'b'), ('ｃ', 'c'), ('ｄ', 'd'), ('ｅ', 'e'), ('ｆ', 'f'),
   ('ｇ', 'g'), ('ｈ', 'h'), ('ｉ', 'i'), ('ｊ', 'j'), ('ｋ', 'k'), ('ｌ', 'l'),
   ('ｍ', 'm'), ('ｎ', 'n'), ('ｏ', 'o'), ('ｐ', 'p'), ('ｑ', 'q'), ('ｒ', 'r'),
   ('ｓ', 's'), ('ｔ', 't'), ('ｕ', 'u'), ('ｖ', 'v'), ('ｗ', 'w'), ('ｘ', 'x'),
   ('ｙ', 'y'), ('ｚ', 'z'),
   ('０', '0'), ('１', '1'), ('２', '2'), ('３', '3'), ('４', '4'), ('５', '5'),
   ('６', '6'), ('７', '7'), ('８', '8'), ('９', '9')]

/-- `str.translate(zen_to_han)` applied to one character. -/
def zenToHan (c : Char) : Char :=
  match zenHanTable.find? (fun p => p.1 == c) with
  | some p => p.2
  | none => c

/-- Python `str.strip()` on a character list. -/
def stripChars (l : List Char) : List Char :=
  ((l.dropWhile isPySpace).reverse.dropWhile isPySpace).reverse

/-- The substitution `re.sub(r'[\s　]+', ' ', s)`: every maximal run of
whitespace becomes one half-width space. -/
def collapse : List Char → List Char
  | [] => []
  | [c] => if isPySpace c then [' '] else [c]
  | c1 :: c2 :: rest =>
    if isPySpace c1 && isPySpace c2 then collapse (c2 :: rest)
    else if isPySpace c1 then ' ' :: collapse (c2 :: rest)
    else c1 :: collapse (c2 :: rest)

/-- The pre-processing pipeline of `normalize_company_name` (analyzer.py
89-100): strip, fold full-width alphanumerics, collapse whitespace runs. -/
def normalize_pre (s : String) : String :=
  String.mk (collapse ((stripChars s.data).map zenToHan))

/-- `DEFAULT_COMPANY_ALIASES` of analyzer.py 35-41. -/
def DEFAULT_COMPANY_ALIASES : List (String × String) :=
  [("JACリクルートメント", "JAC Recruitment"),
   ("ＪＡＣリクルートメント", "JAC Recruitment"),
   ("Z会の通信教育", "Z会"),
   ("Ｚ会の通信教育", "Z会"),
   ("Ｚ会", "Z会")]

/-- The module-level `COMPANY_ALIASES = _load_company_aliases()`: the
repository ships no `config/company_aliases.json`, so `_load_company_aliases`
(analyzer.py 44-68) returns `DEFAULT_COMPANY_ALIASES`. -/
def COMPANY_ALIASES : List (String × String) := DEFAULT_COMPANY_ALIASES

/-- `normalize_company_name` (analyzer.py 75-108), parameterised by the alias
table the module has loaded. Empty input returns unchanged; the alias table is
consulted with the raw name first, then with the pre-processed name. -/
def normalize_company_name (aliases : List (String × String)) (company : String) : String :=
  if company = "" then company
  else
    let normalized := normalize_pre company
    match aliases.find? (fun p => p.1 == company) with
    | some p => p.2
    | none =>
      match aliases.find? (fun p => p.1 == normalized) with
      | some p => p.2
      | none => normalized


/-! ## Historical analyzer (analyzer.py, class `HistoricalAnalyzer`) -/

/-- One per-company ranking entry as consumed by the analyzer: the scraped
dicts' `"company"` and `"score"` keys (`entry.get("company", "")`,
`entry.get("score")`). -/
structure Entry where
  company : String
  score : Option ℚ
  deriving DecidableEq

/-- Running streak state: the values of `company_current[company]`
(analyzer.py 228-233). -/
structure CurStreak where
  start : Nat
  count : Nat
  years_list : List Nat
  deriving DecidableEq

/-- A closed streak as appended to `company_streaks[company]`
(analyzer.py 238-244). -/
structure ClosedStreak where
  start : Nat
  stop : Nat
  count : Nat
  years_list : List Nat
  deriving DecidableEq

/-- One record of the final result list of `_calc_consecutive_wins`
(analyzer.py 261-268). -/
structure StreakRec where
  company : String
  start_year : Nat
  end_year : Nat
  years : Nat
  years_list : List Nat
  is_current : Bool
  deriving DecidableEq

/-- The inner loop of analyzer.py 209-219: walk the year's entries collecting
every company whose score equals the top score (`top_companies`, a set in
insertion order); a non-`None` score different from the top score stops the
scan (`break`); `None` scores are skipped. -/
def collect_top_companies (top : Option ℚ) : List Entry → List String → List String
  | [], acc => acc
  | e :: rest, acc =>
    match e.score with
    | none => collect_top_companies top rest acc
    | some s =>
      if (some s : Option ℚ) == top then
        let c := normalize_company_name COMPANY_ALIASES e.company
        if c = "" then collect_top_companies top rest acc
        else if c ∈ acc then collect_top_companies top rest acc
        else collect_top_companies top rest (acc ++ [c])
      else acc

/-- analyzer.py 221-233: for each co-top company, extend its running streak
or start a new one (Python dicts keep insertion order; updates are in
place, new keys are appended). -/
def update_current (cur : List (String × CurStreak)) (year : Nat) (tops : List String) :
    List (String × CurStreak) :=
  tops.foldl (fun cur c =>
    match cur.find? (fun p => p.1 == c) with
    | some _ =>
      cur.map (fun p =>
        if p.1 == c then (p.1, ⟨p.2.start, p.2.count + 1, p.2.years_list ++ [year]⟩) else p)
    | none => cur ++ [(c, ⟨year, 1, [year]⟩)]) cur

/-- analyzer.py 238-244 and 247-253: close a running streak into the record
appended to `company_streaks` (the end year is `years_list[-1]`, falling back
to the start year). -/
def close_streak (st : CurStreak) : ClosedStreak :=
  ⟨st.start, st.years_list.getLastD st.start, st.count, st.years_list⟩

/-- Append a closed streak to the `company_streaks` defaultdict. -/
def append_streak (streaks : List (String × List ClosedStreak)) (c : String)
    (r : ClosedStreak) : List (String × List ClosedStreak) :=
  match streaks.find? (fun p => p.1 == c) with
  | some _ => streaks.map (fun p => if p.1 == c then (p.1, p.2 ++ [r]) else p)
  | none => streaks ++ [(c, [r])]

/-- One iteration of the year loop of `_calc_consecutive_wins`
(analyzer.py 201-244). -/
def consecutive_step (overall : List (Nat × List Entry))
    (st : List (String × List ClosedStreak) × List (String × CurStreak)) (year : Nat) :
    List (String × List ClosedStreak) × List (String × CurStreak) :=
  let (streaks, cur) := st
  let data := match overall.find? (fun p => p.1 == year) with
    | some p => p.2
    | none => []
  if data.isEmpty then (streaks, cur)
  else
    let top : Option ℚ := match data.head? with
      | some e => e.score
      | none => none
    let tops := collect_top_companies top data []
    let cur := update_current cur year tops
    let closedNow := cur.filter (fun p => ¬ (p.1 ∈ tops))
    let remaining := cur.filter (fun p => p.1 ∈ tops)
    (closedNow.foldl (fun s p => append_streak s p.1 (close_streak p.2)) streaks, remaining)

/-- Sort key of analyzer.py 271: `(-years, -end_year)` ascending. -/
def streakLe (a b : StreakRec) : Bool :=
  decide (b.years < a.years ∨ (a.years = b.years ∧ b.end_year ≤ a.end_year))

/-- `HistoricalAnalyzer._calc_consecutive_wins` (analyzer.py 179-272) over the
overall-ranking mapping `{year: [entry, ...]}`. -/
def calc_consecutive_wins (overall : List (Nat × List Entry)) : List StreakRec :=
  if overall.isEmpty then []
  else
    let years := pySort (fun a b => decide (a ≤ b)) (overall.map (fun p => p.1))
    let (streaks, cur) := years.foldl (consecutive_step overall) ([], [])
    let streaks := cur.foldl (fun s p => append_streak s p.1 (close_streak p.2)) streaks
    let max_year := ((overall.map (fun p => p.1)).max?).getD 0
    let results := streaks.foldl (fun acc p =>
      acc ++ p.2.filterMap (fun r =>
        if 1 ≤ r.count then
          some ⟨p.1, r.start, r.stop, r.count, r.years_list, r.stop == max_year⟩
        else none)) []
    pySort streakLe results

/-- Per-company record of `_count_wins_from_year_data`: `{"count": n, "years": [..]}`. -/
structure WinInfo where
  count : Nat
  years : List Nat
  deriving DecidableEq

/-- The `win_counts[company]` defaultdict update (analyzer.py 307-309). -/
def bump_win (w : List (String × WinInfo)) (c : String) (y : Nat) :
    List (String × WinInfo) :=
  match w.find? (fun p => p.1 == c) with
  | some _ => w.map (fun p => if p.1 == c then (p.1, ⟨p.2.count + 1, p.2.years ++ [y]⟩) else p)
  | none => w ++ [(c, ⟨1, [y]⟩)]

/-- Inner entry loop of `_count_wins_from_year_data` (analyzer.py 300-312):
count every company whose score equals the year's top score; a non-`None`
score different from the top ends the loop; `None` scores are skipped. -/
def count_year (w : List (String × WinInfo)) (top : Option ℚ) (y : Nat) :
    List Entry → List (String × WinInfo)
  | [] => w
  | e :: rest =>
    let c := normalize_company_name COMPANY_ALIASES e.company
    match e.score with
    | none => count_year w top y rest
    | some s =>
      if (some s : Option ℚ) == top then
        if c = "" then count_year w top y rest
        else count_year (bump_win w c y) top y rest
      else w

/-- `HistoricalAnalyzer._count_wins_from_year_data` (analyzer.py 274-314):
per-year tie-aware win counting over `{year: [entry, ...]}` (iterated in
insertion order; empty years are skipped). -/
def count_wins_from_year_data (year_data : List (Nat × List Entry)) :
    List (String × WinInfo) :=
  year_data.foldl (fun w p =>
    match p.2 with
    | [] => w
    | e0 :: _ => count_year w e0.score p.1 p.2) []

/-- One record of the `_calc_most_wins` result (analyzer.py 346-354). -/
structure MostWinsRec where
  company : String
  wins : Nat
  years : List Nat
  total_years : Nat
  deriving DecidableEq

/-- `HistoricalAnalyzer._calc_most_wins` (analyzer.py 337-357). -/
def calc_most_wins (overall : List (Nat × List Entry)) : List MostWinsRec :=
  let win_counts := count_wins_from_year_data overall
  let results := win_counts.map (fun p =>
    MostWinsRec.mk p.1 p.2.count (pySort (fun a b => decide (a ≤ b)) p.2.years) overall.length)
  pySort (fun a b =>
    decide (b.wins < a.wins ∨ (a.wins = b.wins ∧ a.company ≤ b.company))) results

/-- Number of wins credited to company `c` in a `_count_wins_from_year_data`
result (0 when absent). -/
def winsOf (w : List (String × WinInfo)) (c : String) : Nat :=
  match w.find? (fun p => p.1 == c) with
  | some p => p.2.count
  | none => 0

/-- Number of years of a `{year: [entry, ...]}` mapping that actually carry
data (the years the counting loop does not skip). -/
def yearsWithData (year_data : List (Nat × List Entry)) : Nat :=
  (year_data.filter (fun p => ¬ p.2.isEmpty)).length

/-! ## Topics analyzer: `TopicsAnalyzer._analyze_score_difference` (analyzer.py 889-962) -/

/-- The floor of a rational (`Int.fdiv` is floor division; the denominator
is positive), written without `Int.floor` so the kernel can evaluate it. -/
def ratFloor (x : ℚ) : ℤ := x.num.fdiv x.den

/-- Python `round(x, 1)` rounds halves to even; this is the integer step. -/
def roundHalfEven (x : ℚ) : ℤ :=
  let f := ratFloor x
  let frac := x - f
  if frac < 1/2 then f
  else if 1/2 < frac then f + 1
  else if f % 2 = 0 then f else f + 1

/-- `round(score1 - score2, 1)` of analyzer.py 943. -/
def roundPy1 (x : ℚ) : ℚ := (roundHalfEven (10 * x) : ℚ) / 10

/-- The structured content of the four possible topic dicts returned by
`_analyze_score_difference` (their `title`/`evidence` strings are formatting
of exactly these payloads). -/
inductive ScoreDiffTopic
  | tiedTwo (c1 c2 : String) (score : ℚ)
  | tiedMany (companies : List String) (score : ℚ)
  | bigLead (c1 c2 : String) (score1 score2 diff : ℚ)
  | narrowMargin (c1 c2 : String) (score1 score2 diff : ℚ)
  deriving DecidableEq

/-- The tie scan of analyzer.py 908-913: collect companies (raw names) from
`data[1:]` while their score equals the top score; stop at the first
difference. -/
def tied_scan (q1 : ℚ) : List Entry → List String
  | [] => []
  | e :: rest =>
    if e.score == (some q1 : Option ℚ) then e.company :: tied_scan q1 rest else []

/-- `TopicsAnalyzer._analyze_score_difference` (analyzer.py 889-962): emits a
tie topic when several entries share the top score, otherwise compares the
top two scores: gap (rounded to one decimal) `>= 2.0` gives the "big lead"
topic, `<= 0.5` the "narrow margin" topic, anything else no topic. -/
def analyze_score_difference (overall : List (Nat × List Entry)) : Option ScoreDiffTopic :=
  if overall.isEmpty then none
  else
    let latest := ((overall.map (fun p => p.1)).max?).getD 0
    let data := match overall.find? (fun p => p.1 == latest) with
      | some p => p.2
      | none => []
    match data with
    | e1 :: e2 :: rest =>
      match e1.score with
      | none => none
      | some q1 =>
        match tied_scan q1 (e2 :: rest) with
        | [c2] => some (.tiedTwo e1.company c2 q1)
        | c2 :: c3 :: more => some (.tiedMany (e1.company :: c2 :: c3 :: more) q1)
        | [] =>
          match e2.score with
          | none => none
          | some q2 =>
            let diff := roundPy1 (q1 - q2)
            if 2 ≤ diff then some (.bigLead e1.company e2.company q1 q2 diff)
            else if diff ≤ 1/2 then some (.narrowMargin e1.company e2.company q1 q2 diff)
            else none
    | _ => none

/-! ## Ranking page scraper (scraper.py 1799-2015)

`_extract_ranking_data` reads a "ranking box" DOM element through a fixed
sequence of BeautifulSoup selector + regex probes. The embedding keeps the
probe RESULTS abstract (one `Option` per probe, exactly the value the regex
match would deliver) and models faithfully everything the function does with
them: priority, Python truthiness (`0`, `0.0`, `""` and `None` are all
falsy), range validation, whitespace clean-up, and key presence. -/

/-- Probe results for one ranking box. Rank probes (in priority order):
`icon-rank` text, `img` alt text (outside `td.rank` / `ranking-score`),
`rank-N` class name, generic `icon` class text — all via `re.search
r"(\d+)"`, hence natural numbers. Company probes: `h3[itemprop=name]`,
plain `h3`, a `company|name` class — `get_text(strip=True)` strings.
Score probes: a `score` class text, a `strong` text — via
`re.search r"(\d+\.?\d*)"`, hence non-negative decimals. `none` means the
selector found nothing. -/
structure RawBox where
  rank1 : Option Nat
  rank2 : Option Nat
  rank3 : Option Nat
  rank4 : Option Nat
  company1 : Option String
  company2 : Option String
  company3 : Option String
  score1 : Option ℚ
  score2 : Option ℚ
  deriving DecidableEq

/-- One entry of the list `_fetch_ranking_page` returns:
`{"rank": .., "company": .., "score": ..}` (`score` key possibly absent). -/
structure ScrapedEntry where
  rank : Nat
  company : String
  score : Option ℚ
  deriving DecidableEq

/-- Chained fallback of scraper.py 1919-1960: each later probe runs only
`if not rank:`, i.e. while the value so far is `None` or `0`. -/
def firstTruthyNat : List (Option Nat) → Option Nat
  | [] => none
  | c :: rest => match c with
    | some v => if v ≠ 0 then some v else firstTruthyNat rest
    | none => firstTruthyNat rest

/-- Same chaining for the company probes (`if not company:` — empty strings
are falsy and fall through). -/
def firstTruthyStr : List (Option String) → Option String
  | [] => none
  | c :: rest => match c with
    | some v => if v ≠ "" then some v else firstTruthyStr rest
    | none => firstTruthyStr rest

/-- Same chaining for the score probes (`if not score:` — `0.0` is falsy). -/
def firstTruthyQ : List (Option ℚ) → Option ℚ
  | [] => none
  | c :: rest => match c with
    | some v => if v ≠ 0 then some v else firstTruthyQ rest
    | none => firstTruthyQ rest

/-- The clean-up of scraper.py 1990: `re.sub(r"\s+", " ", company).strip()`. -/
def clean_company_text (s : String) : String :=
  String.mk (stripChars (collapse s.data))

/-- `OriconScraper._extract_ranking_data` (scraper.py 1900-2015): pick the
first truthy rank probe and validate `1 <= rank <= 100`; pick the first
truthy company probe and clean its whitespace; pick the first truthy score
probe, storing the `score` key only when truthy; return `None` when the rank
validation fails or no company was found. -/
def extract_ranking_data (b : RawBox) : Option ScrapedEntry :=
  match firstTruthyNat [b.rank1, b.rank2, b.rank3, b.rank4] with
  | none => none
  | some rank =>
    if rank < 1 ∨ 100 < rank then none
    else
      match firstTruthyStr [b.company1, b.company2, b.company3] with
      | none => none
      | some raw =>
        some ⟨rank, clean_company_text raw, firstTruthyQ [b.score1, b.score2]⟩

/-- One `<li>` of the legacy `ul.rankin` layout (scraper.py 1867-1887):
`none` when `p.rank` / `p.name` are not both present, otherwise the
`re.search(r"(\d+)")` result on the rank text (`none` when no digits) and
the (stripped) company text. -/
structure LegacyLi where
  rank : Option Nat
  company : String
  deriving DecidableEq

/-- Everything `_fetch_ranking_page` extracts from a successfully fetched
page: the ranking boxes (per-box extraction may raise, caught at
scraper.py 1858), and — when a `ul.rankin` legacy list exists — its items
(per-item extraction may raise, caught at scraper.py 1888). -/
structure PageData where
  boxes : List (Except Unit RawBox)
  legacyItems : Option (List (Except Unit (Option LegacyLi)))

/-- The box loop of scraper.py 1849-1859: append each extracted entry whose
company is truthy and unseen; `seen_companies` grows in step. A raised
per-box error only skips that box (`except: continue`). -/
def primaryLoop (boxes : List (Except Unit RawBox))
    (rankings : List ScrapedEntry) (seen : List String) :
    List ScrapedEntry × List String :=
  match boxes with
  | [] => (rankings, seen)
  | b :: rest =>
    match b with
    | .error _ => primaryLoop rest rankings seen
    | .ok bx =>
      match extract_ranking_data bx with
      | none => primaryLoop rest rankings seen
      | some d =>
        if d.company ≠ "" ∧ ¬ d.company ∈ seen then
          primaryLoop rest (rankings ++ [d]) (seen ++ [d.company])
        else primaryLoop rest rankings seen

/-- The legacy-list loop of scraper.py 1863-1889: entries get `score: None`;
the guard is `if rank and company and company not in seen_companies` (a rank
of `0` is falsy); per-item errors only skip that item. -/
def legacyLoop (items : List (Except Unit (Option LegacyLi)))
    (rankings : List ScrapedEntry) (seen : List String) :
    List ScrapedEntry × List String :=
  match items with
  | [] => (rankings, seen)
  | i :: rest =>
    match i with
    | .error _ => legacyLoop rest rankings seen
    | .ok none => legacyLoop rest rankings seen
    | .ok (some li) =>
      match li.rank with
      | none => legacyLoop rest rankings seen
      | some r =>
        if r ≠ 0 ∧ li.company ≠ "" ∧ ¬ li.company ∈ seen then
          legacyLoop rest (rankings ++ [⟨r, li.company, none⟩]) (seen ++ [li.company])
        else legacyLoop rest rankings seen

/-- Sort key of scraper.py 1892: `(x.get("rank", 999), -(x.get("score") or 0))`
ascending — rank ascending, ties by score (absent treated as 0) descending. -/
def scrapeLe (a b : ScrapedEntry) : Bool :=
  decide (a.rank < b.rank ∨ (a.rank = b.rank ∧ b.score.getD 0 ≤ a.score.getD 0))

/-- `OriconScraper._fetch_ranking_page` (scraper.py 1799-1898) downstream of
the HTTP fetch: `.error` stands for any exception of the outer `try` (network
failure, non-2xx `raise_for_status`, parse failure) — caught at 1896,
returning `[]`. On success the box loop runs; the legacy loop runs only when
it produced nothing; the result is sorted by `(rank, -score)`. -/
def fetch_ranking_page (page : Except Unit PageData) : List ScrapedEntry :=
  match page with
  | .error _ => []
  | .ok p =>
    let (rankings, seen) := primaryLoop p.boxes [] []
    let rankings :=
      if rankings.isEmpty then
        match p.legacyItems with
        | some items => (legacyLoop items rankings seen).1
        | none => rankings
      else rankings
    pySort scrapeLe rankings

/-- The per-box candidate sequence: the entries that pass extraction and the
truthy-company guard, in document order (dedup against `seen_companies` not
yet applied). Used to state which entry survives for a given company. -/
def primaryCandidates (boxes : List (Except Unit RawBox)) : List ScrapedEntry :=
  boxes.filterMap (fun b =>
    match b with
    | .error _ => none
    | .ok bx =>
      match extract_ranking_data bx with
      | none => none
      | some d => if d.company ≠ "" then some d else none)

/-- The legacy candidate sequence under the same reading. -/
def legacyCandidates (items : List (Except Unit (Option LegacyLi))) : List ScrapedEntry :=
  items.filterMap (fun i =>
    match i with
    | .error _ => none
    | .ok none => none
    | .ok (some li) =>
      match li.rank with
      | none => none
      | some r => if r ≠ 0 ∧ li.company ≠ "" then some (⟨r, li.company, none⟩ : ScrapedEntry) else none)

/-- The candidate list the returned entries are drawn from: the ranking
boxes, or — when no box yields a usable entry — the legacy list. -/
def pageCandidates (p : PageData) : List ScrapedEntry :=
  if (primaryCandidates p.boxes).isEmpty then
    match p.legacyItems with
    | some items => legacyCandidates items
    | none => []
  else primaryCandidates p.boxes

/-- First-occurrence-wins deduplication by company against a `seen` set;
the common shape of both loops above. -/
def dedupFirst (seen : List String) : List ScrapedEntry → List ScrapedEntry
  | [] => []
  | e :: rest =>
    if e.company ∈ seen then dedupFirst seen rest
    else e :: dedupFirst (seen ++ [e.company]) rest

/-! ## URL resolution (src/scraping/url_resolver.py and scraper.py 430-526)

Core `String` operations such as `splitOn` and `replace` are re-implemented
structurally on `List Char` (same semantics as Python's `str.split` /
`str.replace` for the arguments used here) so that concrete URL computations
reduce inside the kernel. -/

/-- Python `s.split(sep)` for a single-character separator: every occurrence
splits, empty pieces are kept, the empty string yields `[""]`. -/
def splitOnChar (sep : Char) : List Char → List (List Char)
  | [] => [[]]
  | c :: t =>
    let r := splitOnChar sep t
    if c == sep then [] :: r
    else
      match r with
      | [] => [[c]]
      | h :: t2 => (c :: h) :: t2

/-- `sep.join(pieces)` for a single-character separator. -/
def joinWithChar (sep : Char) : List (List Char) → List Char
  | [] => []
  | [x] => x
  | x :: y :: t => x ++ sep :: joinWithChar sep (y :: t)

/-- Python's `pat in s` substring test. -/
def containsSub (pat : List Char) : List Char → Bool
  | [] => pat.isEmpty
  | c :: t => pat.isPrefixOf (c :: t) || containsSub pat t

/-- Fuel-indexed worker for `replaceSub` (fuel bounds the scan length, making
the recursion structural). -/
def replaceSubFuel (pat rep : List Char) : Nat → List Char → List Char
  | 0, s => s
  | _ + 1, [] => []
  | fuel + 1, c :: t =>
    if ¬ pat.isEmpty ∧ pat.isPrefixOf (c :: t) then
      rep ++ replaceSubFuel pat rep fuel ((c :: t).drop pat.length)
    else c :: replaceSubFuel pat rep fuel t

/-- Python `s.replace(pat, rep)`: replace every (left-to-right,
non-overlapping) occurrence. -/
def replaceSub (pat rep s : List Char) : List Char :=
  replaceSubFuel pat rep s.length s

/-- Python `s.startswith(pat)`. -/
def strStartsWith (s pat : String) : Bool :=
  pat.data.isPrefixOf s.data

/-- `URLResolver.SUBDOMAIN_MAP` (url_resolver.py 35-70), in declaration
order: slug patterns routed to the `juken` / `career` subdomains. -/
def SUBDOMAIN_MAP : List (String × String) :=
  [("online-english", "juken"), ("kids-english", "juken"), ("_english", "juken"),
   ("_college", "juken"), ("highschool", "juken"), ("_junior", "juken"),
   ("online-study", "juken"), ("tutor", "juken"), ("cc", "juken"),
   ("license", "juken"), ("kids-swimming", "juken"), ("kids-programming", "juken"),
   ("programming-for-kids", "juken"), ("cram-school", "juken"),
   ("elementary-school-tutoring", "juken"),
   ("new-graduates-hiring-website", "career"), ("reversed-job-offer", "career"),
   ("arbeit", "career"), ("job-change", "career"), ("_agent", "career"),
   ("_staffing", "career"), ("dispatch", "career"), ("employment-agency", "career"),
   ("recruiting", "career"), ("career-change", "career"),
   ("recruitment-support", "career"), ("senior-employment", "career"),
   ("freelance-agent", "career"), ("side-job", "career"), ("training", "career"),
   ("talent-management", "career")]

/-- `URL_SLUG_MAP`, identical in url_resolver.py 72-91 and scraper.py 201-217:
renamed slug → (new slug, new subdomain). -/
def URL_SLUG_MAP : List (String × String × String) :=
  [("moving-company", "_move", "life"),
   ("travel-reservation-site", "travel-website", "life"),
   ("fitness-gym", "_fitness", "life"),
   ("_hikari", "_internet", "life"),
   ("home-wifi", "_internet", "life"),
   ("_site", "job-change", "career"),
   ("_haken", "_staffing", "career"),
   ("english-school", "_english", "juken"),
   ("programming-school", "kids-programming", "juken"),
   ("kids-english-school", "kids-english", "juken"),
   ("swimming-school", "kids-swimming", "juken")]

/-- `OriconScraper.SUBPATH_MAP` (scraper.py 220-222). -/
def SUBPATH_MAP : List (String × String) := [("infant", "preschooler")]

/-- The expression `slug.split('/')[0].split('@')[0]`. -/
def baseSlugOf (slug : String) : String :=
  String.mk ((splitOnChar '@' ((splitOnChar '/' slug.data).headD [])).headD [])

/-- `URLResolver._build_url_prefix` (url_resolver.py 195-212): `_fx →
rank_fx`, `rank_certificate` and `rank-mobile-carrier` kept as-is,
`mobile-carrier → rank-mobile-carrier`. -/
def build_url_prefix_of (slug : String) : String :=
  if strStartsWith slug "_" then "rank" ++ slug
  else if strStartsWith slug "rank_" then slug
  else if strStartsWith slug "rank-" then slug
  else "rank-" ++ slug

/-- `URLResolver._determine_subdomain` (url_resolver.py 177-193): first
`SUBDOMAIN_MAP` pattern equal to or prefixing the base slug wins; default
`life`. -/
def determine_subdomain (slug : String) : String :=
  let base_slug := baseSlugOf slug
  match SUBDOMAIN_MAP.find? (fun p => base_slug == p.1 || strStartsWith base_slug p.1) with
  | some p => p.2
  | none => "life"

/-- `URLResolver._infer_url_from_slug` (url_resolver.py 144-175). Note the
source builds `url_prefix` from `base_slug`, not from the `URL_SLUG_MAP`
replacement slug; the replacement only changes the subdomain (and feeds the
subpath check). -/
def infer_url_from_slug (slug0 : String) : String :=
  let base_slug := baseSlugOf slug0
  let (slug, subdomain) :=
    match URL_SLUG_MAP.find? (fun p => p.1 == base_slug) with
    | some p => (p.2.1, p.2.2)
    | none => (slug0, determine_subdomain base_slug)
  let url_prefix0 := build_url_prefix_of base_slug
  let (url_prefix1, subpath) :=
    if 2 ≤ (splitOnChar '/' slug.data).length then
      (build_url_prefix_of (String.mk ((splitOnChar '/' slug.data).headD [])),
       String.mk ('/' :: joinWithChar '/' (splitOnChar '/' slug.data).tail))
    else (url_prefix0, "")
  "https://" ++ subdomain ++ ".oricon.co.jp/" ++ url_prefix1 ++ subpath ++ "/"

/-- `urlparse(url).netloc` for the absolute `https://` URLs this code
handles. -/
def parseNetloc (url : String) : String :=
  if strStartsWith url "https://" then
    String.mk ((splitOnChar '/' (url.data.drop 8)).headD [])
  else ""

/-- `urlparse(url).path` for the same URLs. -/
def parsePath (url : String) : String :=
  if strStartsWith url "https://" then
    match splitOnChar '/' (url.data.drop 8) with
    | [] => ""
    | _ :: ps => if ps.isEmpty then "" else String.mk ('/' :: joinWithChar '/' ps)
  else url

/-- The expression `path.strip('/')`. -/
def stripSlashes (s : String) : String :=
  String.mk (((s.data.dropWhile (fun c => c == '/')).reverse.dropWhile
    (fun c => c == '/')).reverse)

/-- One suggestion dict of `_suggest_alternative_urls`; its `reason` string
is presentation of the same data. -/
structure Suggestion where
  url : String
  confidence : String
  deriving DecidableEq

/-- The dedup/limit step of scraper.py 519-526: drop URLs already seen or
equal to the failed URL. -/
def dedupSuggestions (failed : String) (seen : List String) :
    List Suggestion → List Suggestion
  | [] => []
  | s :: rest =>
    if ¬ s.url ∈ seen ∧ s.url ≠ failed then
      s :: dedupSuggestions failed (seen ++ [s.url]) rest
    else dedupSuggestions failed seen rest

/-- `OriconScraper._suggest_alternative_urls` (scraper.py 430-526):
(1) a `URL_SLUG_MAP` rewrite when the de-prefixed slug is renamed,
(2) subdomain swaps among life/juken/career, (3) `rank-` ↔ `rank_` swaps;
deduplicated, minus the failed URL, at most 5. -/
def suggest_alternative_urls (failed_url : String) : List Suggestion :=
  let current_domain := String.mk ((splitOnChar '.' (parseNetloc failed_url).data).headD [])
  let path_parts := (splitOnChar '/' (stripSlashes (parsePath failed_url)).data).map String.mk
  match path_parts with
  | [] => []
  | slug_part :: subpath_parts =>
    let base_slug :=
      if strStartsWith slug_part "rank-" then String.mk (slug_part.data.drop 5)
      else if strStartsWith slug_part "rank_" then "_" ++ String.mk (slug_part.data.drop 5)
      else slug_part
    let s1 : List Suggestion :=
      match URL_SLUG_MAP.find? (fun p => p.1 == base_slug) with
      | some p =>
        let new_slug := p.2.1
        let new_domain := p.2.2
        let new_prefix0 :=
          if strStartsWith new_slug "_" then "rank" ++ new_slug else "rank-" ++ new_slug
        let converted := subpath_parts.map (fun sp =>
          match SUBPATH_MAP.find? (fun q => q.1 == sp) with
          | some q => q.2
          | none => sp)
        let subpath_str :=
          if converted.isEmpty then ""
          else String.mk ('/' :: joinWithChar '/' (converted.map String.data))
        [⟨"https://" ++ new_domain ++ ".oricon.co.jp/" ++ new_prefix0 ++ subpath_str ++ "/",
          "high"⟩]
      | none => []
    let s2 : List Suggestion :=
      (["life", "juken", "career"].filter (fun d => d ≠ current_domain)).map
        (fun alt =>
          ⟨String.mk (replaceSub ("https://" ++ current_domain ++ ".oricon.co.jp").data
            ("https://" ++ alt ++ ".oricon.co.jp").data failed_url.data), "medium"⟩)
    let s3 : List Suggestion :=
      if containsSub "rank-".data failed_url.data then
        [⟨String.mk (replaceSub "rank-".data "rank_".data failed_url.data), "medium"⟩]
      else if containsSub "rank_".data failed_url.data then
        [⟨String.mk (replaceSub "rank_".data "rank-".data failed_url.data), "medium"⟩]
      else []
    (dedupSuggestions failed_url [] (s1 ++ s2 ++ s3)).take 5

/-! ## Master data loader (src/data_access/master_data_loader.py) -/

/-- The parsed shape of `master_data.json` as far as `_validate_data` and
`_verify_checksum` inspect it. `body` stands for
`json.dumps({k: v for k, v in data.items() if k != "checksum"},
sort_keys=True, ensure_ascii=False)`; the SHA-256 digest function is a
parameter of the model. -/
structure MasterDoc where
  hasVersion : Bool
  hasSource : Bool
  hasTotalRankings : Bool
  hasRankings : Bool
  totalDeclared : Nat
  rankingsCount : Nat
  checksum : Option String
  body : String
  deriving DecidableEq

/-- The outcome of opening and JSON-parsing one file. -/
inductive FileRead where
  | missing
  | badJson
  | ok (d : MasterDoc)

/-- Warnings `_validate_data` / `_verify_checksum` merely log. -/
inductive LoadWarning where
  | countMismatch
  | checksumMismatch
  deriving DecidableEq

/-- `MasterDataLoader._verify_checksum` (master_data_loader.py 97-105):
compare the stored checksum with the digest of the rest of the document.
The result is only ever logged. -/
def verify_checksum (hash : String → String) (d : MasterDoc) (expected : String) : Bool :=
  expected == hash d.body

/-- `MasterDataLoader._validate_data` (master_data_loader.py 75-95): missing
required fields raise (`ValueError`); a count mismatch and a checksum
mismatch produce warnings only. -/
def validate_data (hash : String → String) (d : MasterDoc) : Except Unit (List LoadWarning) :=
  if ¬ (d.hasVersion ∧ d.hasSource ∧ d.hasTotalRankings ∧ d.hasRankings) then .error ()
  else
    let w1 := if d.totalDeclared ≠ d.rankingsCount then [LoadWarning.countMismatch] else []
    let w2 := match d.checksum with
      | some expected =>
        if ¬ verify_checksum hash d expected then [LoadWarning.checksumMismatch] else []
      | none => []
    .ok (w1 ++ w2)

/-- `MasterDataLoader._load_json` (master_data_loader.py 65-73): open, parse,
validate; any failure is an exception. -/
def load_json (hash : String → String) : FileRead → Except Unit (MasterDoc × List LoadWarning)
  | .missing => .error ()
  | .badJson => .error ()
  | .ok d =>
    match validate_data hash d with
    | .ok w => .ok (d, w)
    | .error e => .error e

/-- `MasterDataLoader._load_with_fallback` plus `_try_load_backup`
(master_data_loader.py 42-63 and 132-151): any exception from the main file
falls back to the `.backup` file; failure of both is the final
`FileNotFoundError` (`.error`). -/
def load_with_fallback (hash : String → String) (main backup : FileRead) :
    Except Unit (MasterDoc × List LoadWarning) :=
  match load_json hash main with
  | .ok r => .ok r
  | .error _ => load_json hash backup

/-- Shorthand for the normalized company name of an entry (the expression
`normalize_company_name(entry.get("company", ""))` used throughout the
analyzer). -/
abbrev normCo (e : Entry) : String := normalize_company_name COMPANY_ALIASES e.company

/-- A master-data document whose stored checksum will not match the digest
of its body under `zeroHash` (all required fields present). -/
def mismatchedDoc : MasterDoc :=
  ⟨true, true, true, true, 3, 3, some "deadbeef", "rankings-body"⟩

/-- A distinct, checksum-free backup document. -/
def backupDoc : MasterDoc := ⟨true, true, true, true, 1, 1, none, "backup-body"⟩

/-- A stand-in digest function (the loader is parametric in the digest). -/
def zeroHash : String → String := fun _ => "0"

/-! ## Lemmas and theorems -/

theorem pyInsert_perm (le : α → α → Bool) (x : α) (l : List α) :
    List.Perm (pyInsert le x l) (x :: l) := by
  induction l with
  | nil => simp [pyInsert]
  | cons y ys ih =>
    simp only [pyInsert]
    by_cases h : le y x
    · simp only [h, if_pos]
      exact ((ih.cons y).trans (List.Perm.swap x y ys))
    · simp [h]

theorem pySort_perm (le : α → α → Bool) (l : List α) : List.Perm (pySort le l) l := by
  suffices h : ∀ (l acc : List α),
      List.Perm (l.foldl (fun acc x => pyInsert le x acc) acc) (acc ++ l) by
    simpa [pySort] using h l []
  intro l
  induction l with
  | nil => simp
  | cons x xs ih =>
    intro acc
    have h2 := (pyInsert_perm le x acc).append_right xs
    have h3 : List.Perm ((x :: acc) ++ xs) (acc ++ x :: xs) := List.perm_middle.symm
    exact (ih (pyInsert le x acc)).trans (h2.trans h3)

theorem pyInsert_pairwise (le : α → α → Bool)
    (htrans : ∀ a b c, le a b = true → le b c = true → le a c = true)
    (htotal : ∀ a b, le a b = true ∨ le b a = true)
    (x : α) (l : List α) (hl : l.Pairwise (fun a b => le a b = true)) :
    (pyInsert le x l).Pairwise (fun a b => le a b = true) := by
  induction l with
  | nil => simp [pyInsert]
  | cons y ys ih =>
    rcases List.pairwise_cons.mp hl with ⟨hy, hys⟩
    simp only [pyInsert]
    by_cases h : le y x
    · simp only [h, if_pos]
      refine List.pairwise_cons.mpr ⟨?_, ih hys⟩
      intro z hz
      rcases List.mem_cons.mp ((pyInsert_perm le x ys).mem_iff.mp hz) with hz | hz
      · subst hz; exact h
      · exact hy z hz
    · simp only [h, if_neg, Bool.not_eq_true]
      refine List.pairwise_cons.mpr ⟨?_, hl⟩
      intro z hz
      have hxy : le x y = true := by
        rcases htotal x y with h' | h'
        · exact h'
        · exact absurd h' (by simp [h])
      rcases List.mem_cons.mp hz with hz | hz
      · subst hz; exact hxy
      · exact htrans x y z hxy (hy z hz)

theorem pySort_pairwise (le : α → α → Bool)
    (htrans : ∀ a b c, le a b = true → le b c = true → le a c = true)
    (htotal : ∀ a b, le a b = true ∨ le b a = true)
    (l : List α) : (pySort le l).Pairwise (fun a b => le a b = true) := by
  suffices h : ∀ (l acc : List α), acc.Pairwise (fun a b => le a b = true) →
      (l.foldl (fun acc x => pyInsert le x acc) acc).Pairwise (fun a b => le a b = true) by
    exact h l [] (by simp)
  intro l
  induction l with
  | nil => intro acc h; simpa using h
  | cons x xs ih =>
    intro acc hacc
    exact ih _ (pyInsert_pairwise le htrans htotal x acc hacc)

/-- C2: for the input `{2021: [A 10, B 10], 2022: [A 10]}` both A and B are
credited a win in 2021 (equality with the top score is the criterion), A's
streak runs 2021-2022 with count 2, and B's streak closes at count 1 ending
in 2021. -/
theorem C2_tie_handling :
    calc_consecutive_wins
        [(2021, [⟨"A", some 10⟩, ⟨"B", some 10⟩]), (2022, [⟨"A", some 10⟩])] =
      [⟨"A", 2021, 2022, 2, [2021, 2022], true⟩,
       ⟨"B", 2021, 2021, 1, [2021], false⟩] ∧
    count_wins_from_year_data
        [(2021, [⟨"A", some 10⟩, ⟨"B", some 10⟩]), (2022, [⟨"A", some 10⟩])] =
      [("A", ⟨2, [2021, 2022]⟩), ("B", ⟨1, [2021]⟩)] := by
  constructor
  · decide
  · decide

/-- C8: the URL prefix convention — `"_fx" → "rank_fx"`,
`"mobile-carrier" → "rank-mobile-carrier"`, underscore slugs get `rank`
prepended, `rank_`/`rank-` slugs are kept, other slugs get `rank-`
prepended — and, for every slug in the renamed-slug table `URL_SLUG_MAP`,
the first suggested alternate URL is built from the mapped slug and the
mapped subdomain. -/
theorem C8_url_resolution :
    build_url_prefix_of "_fx" = "rank_fx" ∧
    build_url_prefix_of "mobile-carrier" = "rank-mobile-carrier" ∧
    (∀ slug : String,
      build_url_prefix_of slug =
        if strStartsWith slug "_" then "rank" ++ slug
        else if strStartsWith slug "rank_" ∨ strStartsWith slug "rank-" then slug
        else "rank-" ++ slug) ∧
    (URL_SLUG_MAP.all (fun p => (["life", "juken", "career"].all (fun d =>
      decide ((suggest_alternative_urls
          ("https://" ++ d ++ ".oricon.co.jp/" ++ build_url_prefix_of p.1 ++ "/")).head? =
        some ⟨"https://" ++ p.2.2 ++ ".oricon.co.jp/" ++ build_url_prefix_of p.2.1 ++ "/",
          "high"⟩)))) = true) := by
  refine ⟨by decide, by decide, ?_, by decide⟩
  intro slug
  by_cases h1 : strStartsWith slug "_" <;>
    by_cases h2 : strStartsWith slug "rank_" <;>
      by_cases h3 : strStartsWith slug "rank-" <;>
        simp [build_url_prefix_of, h1, h2, h3]

/-- C9 counterexample: a well-formed master-data document whose `checksum`
field does not match the digest of the rest of the document is still
accepted by the loader — the backup file is not consulted and no exception
is raised; the mismatch is only recorded as a warning. -/
theorem C9_counterexample :
    verify_checksum zeroHash mismatchedDoc "deadbeef" = false ∧
    load_with_fallback zeroHash (.ok mismatchedDoc) (.ok backupDoc) =
      .ok (mismatchedDoc, [LoadWarning.checksumMismatch]) := by
  constructor
  · rfl
  · rfl

/-- C9 (amended): whenever the main master-data file parses and carries the
required fields, the loader accepts it regardless of the checksum; a
checksum mismatch contributes only a logged warning, and the `.backup`
fallback is reserved for missing-file / parse / missing-field failures. -/
theorem C9_checksum_warn_only (hash : String → String) (d : MasterDoc) (backup : FileRead)
    (h1 : d.hasVersion = true) (h2 : d.hasSource = true)
    (h3 : d.hasTotalRankings = true) (h4 : d.hasRankings = true) :
    load_with_fallback hash (.ok d) backup =
      .ok (d,
        (if d.totalDeclared ≠ d.rankingsCount then [LoadWarning.countMismatch] else []) ++
        (match d.checksum with
         | some expected =>
           if ¬ verify_checksum hash d expected then [LoadWarning.checksumMismatch] else []
         | none => [])) := by
  simp [load_with_fallback, load_json, validate_data, h1, h2, h3, h4]

/-- C9 witness: the amended theorem applied to the mismatched document. -/
theorem C9_checksum_warn_only_witness :
    load_with_fallback zeroHash (.ok mismatchedDoc) (.ok backupDoc) =
      .ok (mismatchedDoc, [LoadWarning.checksumMismatch]) := by
  have h := C9_checksum_warn_only zeroHash mismatchedDoc (.ok backupDoc) rfl rfl rfl rfl
  exact h

theorem winsOf_cons (p : String × WinInfo) (l : List (String × WinInfo)) (c : String) :
    winsOf (p :: l) c = if p.1 == c then p.2.count else winsOf l c := by
  by_cases h : p.1 == c <;> simp [winsOf, List.find?, h]

theorem winsOf_map_bump (l : List (String × WinInfo)) (c c' : String) (y : Nat)
    (h : c' ≠ c) :
    winsOf (l.map (fun p =>
      if p.1 == c then (p.1, ⟨p.2.count + 1, p.2.years ++ [y]⟩) else p)) c' = winsOf l c' := by
  induction l with
  | nil => rfl
  | cons p l ih =>
    rw [List.map_cons, winsOf_cons, winsOf_cons]
    have hkeep :
        ((if p.1 == c then (p.1, (⟨p.2.count + 1, p.2.years ++ [y]⟩ : WinInfo)) else p).1) = p.1 := by
      by_cases hpc : p.1 == c <;> simp [hpc]
    rw [hkeep]
    by_cases hkey : p.1 == c'
    · have hp1 : p.1 = c' := by simpa using hkey
      have hpc : (p.1 == c) = false := by
        rw [hp1]
        exact beq_eq_false_iff_ne.mpr h
      rw [if_pos hkey, if_pos hkey]
      simp [hpc]
    · rw [if_neg hkey, if_neg hkey]
      exact ih

theorem winsOf_eq_zero_of_find?_none (w : List (String × WinInfo)) (c : String)
    (h : w.find? (fun p => p.1 == c) = none) : winsOf w c = 0 := by
  unfold winsOf
  rw [h]

theorem winsOf_map_bump_self (w : List (String × WinInfo)) (c : String) (y : Nat)
    (q : String × WinInfo) (hf : w.find? (fun p => p.1 == c) = some q) :
    winsOf (w.map (fun p =>
      if p.1 == c then (p.1, ⟨p.2.count + 1, p.2.years ++ [y]⟩) else p)) c = winsOf w c + 1 := by
  induction w with
  | nil => simp [List.find?] at hf
  | cons p w ih =>
    rw [List.map_cons, winsOf_cons, winsOf_cons]
    have hkeep :
        ((if p.1 == c then (p.1, (⟨p.2.count + 1, p.2.years ++ [y]⟩ : WinInfo)) else p).1) = p.1 := by
      by_cases hpc : p.1 == c <;> simp [hpc]
    rw [hkeep]
    by_cases hpc : p.1 == c
    · rw [if_pos hpc, if_pos hpc]
      simp [hpc]
    · have hb : (p.1 == c) = false := by simpa using hpc
      rw [if_neg hpc, if_neg hpc]
      simp only [List.find?, hb] at hf
      exact ih hf

theorem winsOf_append_single_self (w : List (String × WinInfo)) (c : String) (i : WinInfo)
    (h : w.find? (fun p => p.1 == c) = none) :
    winsOf (w ++ [(c, i)]) c = i.count := by
  induction w with
  | nil => simp [winsOf_cons, winsOf]
  | cons p w ih =>
    by_cases hpc : p.1 == c
    · simp only [List.find?, hpc] at h
      exact Option.noConfusion h
    · have hb : (p.1 == c) = false := by simpa using hpc
      simp only [List.find?, hb] at h
      rw [List.cons_append, winsOf_cons, if_neg hpc]
      exact ih h

theorem winsOf_append_single_other (w : List (String × WinInfo)) (c c' : String) (i : WinInfo)
    (h : c' ≠ c) : winsOf (w ++ [(c, i)]) c' = winsOf w c' := by
  induction w with
  | nil =>
    have hb : (c == c') = false := beq_eq_false_iff_ne.mpr (fun hc => h hc.symm)
    simp [winsOf_cons, winsOf, hb]
  | cons p w ih =>
    rw [List.cons_append, winsOf_cons, winsOf_cons, ih]

theorem winsOf_bump_win (w : List (String × WinInfo)) (c c' : String) (y : Nat) :
    winsOf (bump_win w c y) c' = winsOf w c' + (if c' = c then 1 else 0) := by
  unfold bump_win
  cases hf : w.find? (fun p => p.1 == c) with
  | some q =>
    by_cases h : c' = c
    · subst h
      rw [winsOf_map_bump_self w c' y q hf]
      simp
    · rw [winsOf_map_bump w c c' y h]
      simp [h]
  | none =>
    by_cases h : c' = c
    · subst h
      simp [winsOf_append_single_self w c' _ hf, winsOf_eq_zero_of_find?_none w c' hf]
    · simp [winsOf_append_single_other w c c' _ h, h]

theorem winsOf_count_year_le (es : List Entry) (w : List (String × WinInfo)) (top : Option ℚ)
    (y : Nat) (c : String) :
    winsOf (count_year w top y es) c ≤
      winsOf w c + es.countP (fun e => normCo e == c) := by
  induction es generalizing w with
  | nil => simp [count_year]
  | cons e es ih =>
    rw [List.countP_cons]
    cases hs : e.score with
    | none =>
      simp only [count_year, hs]
      have h1 := ih w
      by_cases he : normCo e == c <;> simp [he] <;> omega
    | some s =>
      simp only [count_year, hs]
      by_cases htop : ((some s : Option ℚ) == top)
      · rw [if_pos htop]
        by_cases hc : normCo e = ""
        · rw [if_pos hc]
          have h1 := ih w
          by_cases he : normCo e == c <;> simp [he] <;> omega
        · rw [if_neg hc]
          have h1 := ih (bump_win w (normCo e) y)
          have h2 := winsOf_bump_win w (normCo e) c y
          by_cases he : normCo e == c
          · have hce : c = normCo e := by
              have hx : normCo e = c := by simpa using he
              exact hx.symm
            simp only [he, if_pos, hce] at *
            simp only [normCo] at h1 h2 ⊢
            simp at h2 ⊢
            omega
          · have hce : ¬ c = normCo e := by
              intro hcc
              exact he (by simp [hcc])
            simp only [hce, if_neg] at h2
            simp only [he, if_neg]
            simp only [normCo] at h1 h2 ⊢
            simp at h2 ⊢
            omega
      · rw [if_neg htop]
        by_cases he : normCo e == c <;> simp [he]

theorem countP_normCo_le_one (data : List Entry) (c : String)
    (h : (data.map normCo).Nodup) :
    data.countP (fun e => normCo e == c) ≤ 1 := by
  induction data with
  | nil => simp
  | cons e es ih =>
    rw [List.map_cons, List.nodup_cons] at h
    rw [List.countP_cons]
    by_cases he : normCo e == c
    · have hceq : normCo e = c := by simpa using he
      have hzero : es.countP (fun e2 => normCo e2 == c) = 0 := by
        rw [List.countP_eq_zero]
        intro e2 he2 hbeq
        have h2 : normCo e2 = c := by simpa using hbeq
        exact h.1 (by rw [hceq, ← h2]; exact List.mem_map_of_mem _ he2)
      simp [hzero, he]
    · simp [he]
      exact ih h.2

theorem yearsWithData_cons (p : Nat × List Entry) (yd : List (Nat × List Entry)) :
    yearsWithData (p :: yd) = (if p.2.isEmpty then 0 else 1) + yearsWithData yd := by
  cases hd : p.2 with
  | nil => simp [yearsWithData, List.filter_cons, hd]
  | cons a l =>
    simp [yearsWithData, List.filter_cons, hd]
    omega

theorem winsOf_count_wins_le (year_data : List (Nat × List Entry)) (c : String)
    (h : ∀ p ∈ year_data, ((p.2).map normCo).Nodup) :
    winsOf (count_wins_from_year_data year_data) c ≤ yearsWithData year_data := by
  suffices H : ∀ (yd : List (Nat × List Entry)) (w : List (String × WinInfo)),
      (∀ p ∈ yd, ((p.2).map normCo).Nodup) →
      winsOf (yd.foldl (fun w p => match p.2 with
        | [] => w
        | e0 :: _ => count_year w e0.score p.1 p.2) w) c ≤ winsOf w c + yearsWithData yd by
    have := H year_data [] h
    simpa [count_wins_from_year_data, winsOf, List.find?, yearsWithData] using this
  intro yd
  induction yd with
  | nil =>
    intro w _
    simp [yearsWithData]
  | cons p yd ih =>
    intro w hyp
    rw [List.foldl_cons, yearsWithData_cons]
    cases hd : p.2 with
    | nil =>
      simp only [hd]
      have h1 := ih w (fun q hq => hyp q (List.mem_cons_of_mem _ hq))
      simp [hd]
      omega
    | cons e0 data2 =>
      simp only [hd]
      have h1 := ih (count_year w e0.score p.1 (e0 :: data2))
        (fun q hq => hyp q (List.mem_cons_of_mem _ hq))
      have h2 := winsOf_count_year_le (e0 :: data2) w e0.score p.1 c
      have h3 : (e0 :: data2).countP (fun e => normCo e == c) ≤ 1 := by
        apply countP_normCo_le_one
        have := hyp p (List.mem_cons_self _ _)
        rw [hd] at this
        exact this
      simp [hd]
      omega

theorem bump_win_keys_nodup (w : List (String × WinInfo)) (c : String) (y : Nat)
    (h : (w.map Prod.fst).Nodup) : ((bump_win w c y).map Prod.fst).Nodup := by
  unfold bump_win
  cases hf : w.find? (fun p => p.1 == c) with
  | some q =>
    rw [List.map_map]
    rw [show (Prod.fst ∘ (fun p : String × WinInfo =>
        if p.1 == c then (p.1, (⟨p.2.count + 1, p.2.years ++ [y]⟩ : WinInfo)) else p)) =
        fun p : String × WinInfo => p.1 from by
      funext p
      by_cases hpc : p.1 = c <;> simp [hpc]]
    exact h
  | none =>
    rw [List.map_append]
    have hc : c ∉ w.map Prod.fst := by
      intro hmem
      rcases List.mem_map.mp hmem with ⟨p, hp, hpc⟩
      have hnone := List.find?_eq_none.mp hf p hp
      simp [hpc] at hnone
    simp [List.nodup_append, h, hc]

theorem count_year_keys_nodup (es : List Entry) (w : List (String × WinInfo))
    (top : Option ℚ) (y : Nat) (h : (w.map Prod.fst).Nodup) :
    ((count_year w top y es).map Prod.fst).Nodup := by
  induction es generalizing w with
  | nil => simpa [count_year]
  | cons e es ih =>
    cases hs : e.score with
    | none =>
      simp only [count_year, hs]
      exact ih w h
    | some s =>
      simp only [count_year, hs]
      by_cases htop : ((some s : Option ℚ) == top)
      · rw [if_pos htop]
        by_cases hc : normCo e = ""
        · rw [if_pos hc]
          exact ih w h
        · rw [if_neg hc]
          exact ih _ (bump_win_keys_nodup w _ y h)
      · rw [if_neg htop]
        exact h

theorem count_wins_keys_nodup (year_data : List (Nat × List Entry)) :
    ((count_wins_from_year_data year_data).map Prod.fst).Nodup := by
  suffices H : ∀ (yd : List (Nat × List Entry)) (w : List (String × WinInfo)),
      (w.map Prod.fst).Nodup →
      ((yd.foldl (fun w p => match p.2 with
        | [] => w
        | e0 :: _ => count_year w e0.score p.1 p.2) w).map Prod.fst).Nodup by
    exact H year_data [] (by simp)
  intro yd
  induction yd with
  | nil => intro w h; simpa
  | cons p yd ih =>
    intro w h
    rw [List.foldl_cons]
    cases hd : p.2 with
    | nil =>
      simp only [hd]
      exact ih w h
    | cons e0 data2 =>
      simp only [hd]
      exact ih _ (count_year_keys_nodup (e0 :: data2) w e0.score p.1 h)

theorem find?_eq_of_mem_keys_nodup (w : List (String × WinInfo)) (c : String) (i : WinInfo)
    (hmem : (c, i) ∈ w) (h : (w.map Prod.fst).Nodup) :
    w.find? (fun p => p.1 == c) = some (c, i) := by
  induction w with
  | nil => cases hmem
  | cons p w ih =>
    rw [List.map_cons, List.nodup_cons] at h
    rcases List.mem_cons.mp hmem with heq | hmem2
    · subst heq
      simp [List.find?]
    · have hpc : (p.1 == c) = false := by
        refine beq_eq_false_iff_ne.mpr ?_
        intro hpc
        exact h.1 (hpc ▸ List.mem_map.mpr ⟨(c, i), hmem2, rfl⟩)
      simp only [List.find?, hpc]
      exact ih hmem2 h.2

theorem winsOf_of_mem_keys_nodup (w : List (String × WinInfo)) (c : String) (i : WinInfo)
    (hmem : (c, i) ∈ w) (h : (w.map Prod.fst).Nodup) : winsOf w c = i.count := by
  unfold winsOf
  rw [find?_eq_of_mem_keys_nodup w c i hmem h]

/-- C3 counterexample: the claim fails as stated. In the single-year mapping
`{2021: [Ｚ会 10, Z会の通信教育 10]}` the two raw names both normalize to
"Z会" (default alias table), the entries tie at the top score, and the win
counter credits "Z会" twice in that single year: its most-wins count is 2
while only 1 year has data. -/
theorem C3_counterexample :
    winsOf (count_wins_from_year_data
      [(2021, [⟨"Ｚ会", some 10⟩, ⟨"Z会の通信教育", some 10⟩])]) "Z会" = 2 ∧
    yearsWithData [(2021, [⟨"Ｚ会", some 10⟩, ⟨"Z会の通信教育", some 10⟩])] = 1 ∧
    (calc_most_wins [(2021, [⟨"Ｚ会", some 10⟩, ⟨"Z会の通信教育", some 10⟩])]).map
      (fun r => r.wins) = [2] ∧
    ¬ (2 ≤ 1) := by
  exact ⟨by decide, by decide, by decide, by decide⟩

/-- C3 (amended): provided no two entries of any year normalize to the same
company name, every company's win count — and hence every `wins` field of
the `_calc_most_wins` result — is at most the number of years with data. -/
theorem C3_most_wins_bound (year_data : List (Nat × List Entry))
    (h : ∀ p ∈ year_data, ((p.2).map normCo).Nodup) :
    (∀ c, winsOf (count_wins_from_year_data year_data) c ≤ yearsWithData year_data) ∧
    (∀ r ∈ calc_most_wins year_data, r.wins ≤ yearsWithData year_data) := by
  constructor
  · intro c
    exact winsOf_count_wins_le year_data c h
  · intro r hr
    simp only [calc_most_wins] at hr
    have hr2 : r ∈ (count_wins_from_year_data year_data).map (fun p =>
        MostWinsRec.mk p.1 p.2.count (pySort (fun a b => decide (a ≤ b)) p.2.years)
          year_data.length) :=
      (pySort_perm _ _).mem_iff.mp hr
    rcases List.mem_map.mp hr2 with ⟨p, hp, rfl⟩
    have heq : winsOf (count_wins_from_year_data year_data) p.1 = p.2.count :=
      winsOf_of_mem_keys_nodup _ p.1 p.2 (by simpa using hp)
        (count_wins_keys_nodup year_data)
    have hle := winsOf_count_wins_le year_data p.1 h
    simpa [heq] using hle

/-- C3 witness: the amended bound applied to the two-year mapping of C2
(distinct normalized names in every year). -/
theorem C3_most_wins_bound_witness :
    (∀ c, winsOf (count_wins_from_year_data
        [(2021, [⟨"A", some 10⟩, ⟨"B", some 10⟩]), (2022, [⟨"A", some 10⟩])]) c ≤
      yearsWithData [(2021, [⟨"A", some 10⟩, ⟨"B", some 10⟩]), (2022, [⟨"A", some 10⟩])]) ∧
    (∀ r ∈ calc_most_wins
        [(2021, [⟨"A", some 10⟩, ⟨"B", some 10⟩]), (2022, [⟨"A", some 10⟩])],
      r.wins ≤ yearsWithData
        [(2021, [⟨"A", some 10⟩, ⟨"B", some 10⟩]), (2022, [⟨"A", some 10⟩])]) := by
  exact C3_most_wins_bound _ (by decide)

theorem collect_top_break (t : ℚ) (rest : List Entry) (acc : List String)
    (hrest : ∀ e ∈ rest, ∃ q, e.score = some q ∧ q ≠ t) :
    collect_top_companies (some t) rest acc = acc := by
  cases rest with
  | nil => rfl
  | cons e rest2 =>
    rcases hrest e (List.mem_cons_self _ _) with ⟨q, hq, hne⟩
    simp only [collect_top_companies, hq]
    rw [if_neg (by simp [hne])]

theorem collect_top_single (name : String) (t : ℚ) (rest : List Entry)
    (hrest : ∀ e ∈ rest, ∃ q, e.score = some q ∧ q ≠ t)
    (hname : normalize_company_name COMPANY_ALIASES name ≠ "") :
    collect_top_companies (some t) (⟨name, some t⟩ :: rest) [] =
      [normalize_company_name COMPANY_ALIASES name] := by
  simp only [collect_top_companies]
  rw [if_pos (by simp)]
  rw [if_neg hname, if_neg (by simp)]
  exact collect_top_break t rest _ hrest

/-- C1: on the series `{2020: A, 2021: A, 2022: B, 2023: A}` — each year's
list headed by its strict single winner, every further entry scoring
something else — the streak records are exactly A 2020-2021 (2),
B 2022-2022 (1), A 2023-2023 (1): the 2023 re-ascension starts a new streak
instead of merging with the 2020-2021 one. (The result list carries them in
the code's `(-years, -end_year)` sort order.) -/
theorem C1_streaks (sa sb sc sd : ℚ) (ra rb rc rd : List Entry)
    (ha : ∀ e ∈ ra, ∃ q, e.score = some q ∧ q ≠ sa)
    (hb : ∀ e ∈ rb, ∃ q, e.score = some q ∧ q ≠ sb)
    (hc : ∀ e ∈ rc, ∃ q, e.score = some q ∧ q ≠ sc)
    (hd : ∀ e ∈ rd, ∃ q, e.score = some q ∧ q ≠ sd) :
    calc_consecutive_wins
        [(2020, ⟨"A", some sa⟩ :: ra), (2021, ⟨"A", some sb⟩ :: rb),
         (2022, ⟨"B", some sc⟩ :: rc), (2023, ⟨"A", some sd⟩ :: rd)] =
      [⟨"A", 2020, 2021, 2, [2020, 2021], false⟩,
       ⟨"A", 2023, 2023, 1, [2023], true⟩,
       ⟨"B", 2022, 2022, 1, [2022], false⟩] := by
  have t1 := collect_top_single "A" sa ra ha (by decide)
  have t2 := collect_top_single "A" sb rb hb (by decide)
  have t3 := collect_top_single "B" sc rc hc (by decide)
  have t4 := collect_top_single "A" sd rd hd (by decide)
  have hA : normalize_company_name COMPANY_ALIASES "A" = "A" := by decide
  have hB : normalize_company_name COMPANY_ALIASES "B" = "B" := by decide
  rw [hA] at t1 t2 t4
  rw [hB] at t3
  simp [calc_consecutive_wins, consecutive_step, List.foldl, List.find?,
    List.isEmpty, pySort, pyInsert, t1, t2, t3, t4, update_current,
    append_streak, close_streak, streakLe, List.max?]

/-- C1 witness: the theorem at scores 10/11/12/13 with singleton year lists. -/
theorem C1_streaks_witness :
    calc_consecutive_wins
        [(2020, [⟨"A", some 10⟩]), (2021, [⟨"A", some 11⟩]),
         (2022, [⟨"B", some 12⟩]), (2023, [⟨"A", some 13⟩])] =
      [⟨"A", 2020, 2021, 2, [2020, 2021], false⟩,
       ⟨"A", 2023, 2023, 1, [2023], true⟩,
       ⟨"B", 2022, 2022, 1, [2022], false⟩] := by
  have h := C1_streaks 10 11 12 13 [] [] [] []
    (by simp) (by simp) (by simp) (by simp)
  exact h

/-- C7: with distinct top-two scores the score-difference analyzer emits the
"big lead" topic exactly when the rounded gap is at least 2.0, the "narrow
margin" topic exactly when it is at most 0.5, and nothing otherwise;
concretely (70.0, 67.9) is a big lead, (70.0, 69.6) a narrow margin and
(70.0, 69.0) neither. -/
theorem C7_score_gap :
    (∀ (y : Nat) (c1 c2 : String) (q1 q2 : ℚ) (rest : List Entry), q1 ≠ q2 →
      analyze_score_difference [(y, ⟨c1, some q1⟩ :: ⟨c2, some q2⟩ :: rest)] =
        if 2 ≤ roundPy1 (q1 - q2) then
          some (.bigLead c1 c2 q1 q2 (roundPy1 (q1 - q2)))
        else if roundPy1 (q1 - q2) ≤ 1/2 then
          some (.narrowMargin c1 c2 q1 q2 (roundPy1 (q1 - q2)))
        else none) ∧
    analyze_score_difference [(2024, [⟨"X", some 70⟩, ⟨"Y", some (679/10)⟩])] =
      some (.bigLead "X" "Y" 70 (679/10) (21/10)) ∧
    analyze_score_difference [(2024, [⟨"X", some 70⟩, ⟨"Y", some (696/10)⟩])] =
      some (.narrowMargin "X" "Y" 70 (696/10) (2/5)) ∧
    analyze_score_difference [(2024, [⟨"X", some 70⟩, ⟨"Y", some 69⟩])] = none := by
  have G : ∀ (y : Nat) (c1 c2 : String) (q1 q2 : ℚ) (rest : List Entry), q1 ≠ q2 →
      analyze_score_difference [(y, ⟨c1, some q1⟩ :: ⟨c2, some q2⟩ :: rest)] =
        if 2 ≤ roundPy1 (q1 - q2) then
          some (.bigLead c1 c2 q1 q2 (roundPy1 (q1 - q2)))
        else if roundPy1 (q1 - q2) ≤ 1/2 then
          some (.narrowMargin c1 c2 q1 q2 (roundPy1 (q1 - q2)))
        else none := by
    intro y c1 c2 q1 q2 rest hne
    have hsc : ((some q2 : Option ℚ) == some q1) = false := by
      simp only [beq_eq_false_iff_ne, ne_eq, Option.some.injEq]
      exact fun h => hne h.symm
    simp [analyze_score_difference, tied_scan, List.max?, List.find?, hsc]
  refine ⟨G, ?_, ?_, ?_⟩
  · rw [show ([⟨"X", some 70⟩, ⟨"Y", some (679/10)⟩] : List Entry) =
      ⟨"X", some 70⟩ :: ⟨"Y", some (679/10)⟩ :: [] from rfl]
    rw [G 2024 "X" "Y" 70 (679/10) [] (by norm_num)]
    have harg : (70 : ℚ) - 679/10 = 21/10 := by norm_num
    rw [harg]
    have hround : roundPy1 (21/10 : ℚ) = 21/10 := by
      have h10 : (10 : ℚ) * (21/10) = 21 := by norm_num
      have hf : ratFloor (21 : ℚ) = 21 := by
        have hnum : (21 : ℚ).num = 21 := by norm_num
        have hden : ((21 : ℚ).den : ℤ) = 1 := by norm_num
        simp only [ratFloor, hnum]
        norm_num
      simp only [roundPy1, h10, roundHalfEven, hf]
      norm_num
    rw [hround]
    rw [if_pos (by norm_num)]
  · rw [show ([⟨"X", some 70⟩, ⟨"Y", some (696/10)⟩] : List Entry) =
      ⟨"X", some 70⟩ :: ⟨"Y", some (696/10)⟩ :: [] from rfl]
    rw [G 2024 "X" "Y" 70 (696/10) [] (by norm_num)]
    have harg : (70 : ℚ) - 696/10 = 2/5 := by norm_num
    rw [harg]
    have hround : roundPy1 (2/5 : ℚ) = 2/5 := by
      have h10 : (10 : ℚ) * (2/5) = 4 := by norm_num
      have hf : ratFloor (4 : ℚ) = 4 := by
        have hnum : (4 : ℚ).num = 4 := by norm_num
        simp only [ratFloor, hnum]
        norm_num
      simp only [roundPy1, h10, roundHalfEven, hf]
      norm_num
    rw [hround]
    rw [if_neg (by norm_num), if_pos (by norm_num)]
  · rw [show ([⟨"X", some 70⟩, ⟨"Y", some 69⟩] : List Entry) =
      ⟨"X", some 70⟩ :: ⟨"Y", some 69⟩ :: [] from rfl]
    rw [G 2024 "X" "Y" 70 69 [] (by norm_num)]
    have harg : (70 : ℚ) - 69 = 1 := by norm_num
    rw [harg]
    have hround : roundPy1 (1 : ℚ) = 1 := by
      have h10 : (10 : ℚ) * 1 = 10 := by norm_num
      have hf : ratFloor (10 : ℚ) = 10 := by
        have hnum : (10 : ℚ).num = 10 := by norm_num
        simp only [ratFloor, hnum]
        norm_num
      simp only [roundPy1, h10, roundHalfEven, hf]
      norm_num
    rw [hround]
    rw [if_neg (by norm_num), if_neg (by norm_num)]

/-- C7 witness: the threshold rule applied at the concrete pair (70.0, 69.0). -/
theorem C7_score_gap_witness :
    (70 : ℚ) ≠ 69 ∧
    analyze_score_difference [(2024, [⟨"X", some 70⟩, ⟨"Y", some 69⟩])] =
      (if 2 ≤ roundPy1 ((70 : ℚ) - 69) then
        some (.bigLead "X" "Y" 70 69 (roundPy1 ((70 : ℚ) - 69)))
      else if roundPy1 ((70 : ℚ) - 69) ≤ 1/2 then
        some (.narrowMargin "X" "Y" 70 69 (roundPy1 ((70 : ℚ) - 69)))
      else none) :=
  ⟨by norm_num, C7_score_gap.1 2024 "X" "Y" 70 69 [] (by norm_num)⟩

theorem primaryLoop_skip_error (l1 l2 : List (Except Unit RawBox))
    (r : List ScrapedEntry) (s : List String) :
    primaryLoop (l1 ++ .error () :: l2) r s = primaryLoop (l1 ++ l2) r s := by
  induction l1 generalizing r s with
  | nil => simp only [List.nil_append, primaryLoop]
  | cons b l1 ih =>
    cases b with
    | error e => simp only [List.cons_append, primaryLoop]; exact ih r s
    | ok bx =>
      cases hx : extract_ranking_data bx with
      | none =>
        simp only [List.cons_append, primaryLoop, hx]
        exact ih r s
      | some d =>
        simp only [List.cons_append, primaryLoop, hx]
        by_cases hcond : d.company ≠ "" ∧ ¬ d.company ∈ s
        · rw [if_pos hcond, if_pos hcond]; exact ih _ _
        · rw [if_neg hcond, if_neg hcond]; exact ih r s

/-- C6: the ranking-page fetch never propagates an exception — a failure of
the whole fetch (network error, non-2xx status, parse failure) yields the
empty list, and a per-box extraction error merely skips that box, leaving
the result identical to the page without it. -/
theorem C6_error_handling :
    fetch_ranking_page (.error ()) = [] ∧
    (∀ (l1 l2 : List (Except Unit RawBox))
        (legacy : Option (List (Except Unit (Option LegacyLi)))),
      fetch_ranking_page (.ok ⟨l1 ++ .error () :: l2, legacy⟩) =
        fetch_ranking_page (.ok ⟨l1 ++ l2, legacy⟩)) := by
  constructor
  · rfl
  · intro l1 l2 legacy
    simp only [fetch_ranking_page, primaryLoop_skip_error]

theorem primaryLoop_eq (boxes : List (Except Unit RawBox)) (r : List ScrapedEntry)
    (s : List String) :
    primaryLoop boxes r s =
      (r ++ dedupFirst s (primaryCandidates boxes),
       s ++ (dedupFirst s (primaryCandidates boxes)).map (fun e => e.company)) := by
  induction boxes generalizing r s with
  | nil => simp [primaryLoop, primaryCandidates, dedupFirst]
  | cons b boxes ih =>
    cases b with
    | error e =>
      have hcand : primaryCandidates (Except.error () :: boxes) = primaryCandidates boxes := by
        simp [primaryCandidates, List.filterMap_cons]
      simp only [primaryLoop]
      rw [hcand]
      exact ih r s
    | ok bx =>
      cases hx : extract_ranking_data bx with
      | none =>
        have hcand : primaryCandidates (Except.ok bx :: boxes) = primaryCandidates boxes := by
          simp [primaryCandidates, List.filterMap_cons, hx]
        simp only [primaryLoop, hx]
        rw [hcand]
        exact ih r s
      | some d =>
        by_cases hne : d.company = ""
        · have hcand : primaryCandidates (Except.ok bx :: boxes) = primaryCandidates boxes := by
            simp [primaryCandidates, List.filterMap_cons, hx, hne]
          simp only [primaryLoop, hx]
          rw [if_neg (by simp [hne]), hcand]
          exact ih r s
        · have hcand : primaryCandidates (Except.ok bx :: boxes) =
              d :: primaryCandidates boxes := by
            simp [primaryCandidates, List.filterMap_cons, hx, hne]
          by_cases hmem : d.company ∈ s
          · simp only [primaryLoop, hx]
            rw [if_neg (by simp [hmem]), hcand]
            rw [show dedupFirst s (d :: primaryCandidates boxes) =
              dedupFirst s (primaryCandidates boxes) from by simp [dedupFirst, hmem]]
            exact ih r s
          · simp only [primaryLoop, hx]
            rw [if_pos ⟨by simpa using hne, hmem⟩, hcand]
            rw [show dedupFirst s (d :: primaryCandidates boxes) =
              d :: dedupFirst (s ++ [d.company]) (primaryCandidates boxes) from by
                simp [dedupFirst, hmem]]
            rw [ih (r ++ [d]) (s ++ [d.company])]
            simp

theorem legacyLoop_eq (items : List (Except Unit (Option LegacyLi)))
    (r : List ScrapedEntry) (s : List String) :
    legacyLoop items r s =
      (r ++ dedupFirst s (legacyCandidates items),
       s ++ (dedupFirst s (legacyCandidates items)).map (fun e => e.company)) := by
  induction items generalizing r s with
  | nil => simp [legacyLoop, legacyCandidates, dedupFirst]
  | cons i items ih =>
    cases i with
    | error e =>
      have hcand : legacyCandidates (Except.error () :: items) = legacyCandidates items := by
        simp [legacyCandidates, List.filterMap_cons]
      simp only [legacyLoop]
      rw [hcand]
      exact ih r s
    | ok li? =>
      cases li? with
      | none =>
        have hcand : legacyCandidates (Except.ok none :: items) = legacyCandidates items := by
          simp [legacyCandidates, List.filterMap_cons]
        simp only [legacyLoop]
        rw [hcand]
        exact ih r s
      | some li =>
        cases hr : li.rank with
        | none =>
          have hcand : legacyCandidates (Except.ok (some li) :: items) =
              legacyCandidates items := by
            simp [legacyCandidates, List.filterMap_cons, hr]
          simp only [legacyLoop, hr]
          rw [hcand]
          exact ih r s
        | some rk =>
          by_cases hcond : rk ≠ 0 ∧ li.company ≠ ""
          · have hcand : legacyCandidates (Except.ok (some li) :: items) =
                (⟨rk, li.company, none⟩ : ScrapedEntry) :: legacyCandidates items := by
              simp [legacyCandidates, List.filterMap_cons, hr, hcond.1, hcond.2]
            by_cases hmem : li.company ∈ s
            · simp only [legacyLoop, hr]
              rw [if_neg (by simp [hmem]), hcand]
              rw [show dedupFirst s ((⟨rk, li.company, none⟩ : ScrapedEntry) :: legacyCandidates items) =
                dedupFirst s (legacyCandidates items) from by simp [dedupFirst, hmem]]
              exact ih r s
            · simp only [legacyLoop, hr]
              rw [if_pos ⟨hcond.1, hcond.2, hmem⟩, hcand]
              rw [show dedupFirst s ((⟨rk, li.company, none⟩ : ScrapedEntry) :: legacyCandidates items) =
                (⟨rk, li.company, none⟩ : ScrapedEntry) ::
                  dedupFirst (s ++ [li.company]) (legacyCandidates items) from by
                simp [dedupFirst, hmem]]
              rw [ih (r ++ [(⟨rk, li.company, none⟩ : ScrapedEntry)]) (s ++ [li.company])]
              simp
          · have hcand : legacyCandidates (Except.ok (some li) :: items) =
                legacyCandidates items := by
              rcases Decidable.not_and_iff_or_not.mp hcond with h | h
              · simp [legacyCandidates, List.filterMap_cons, hr,
                  show rk = 0 from by simpa using h]
              · simp [legacyCandidates, List.filterMap_cons, hr,
                  show li.company = "" from by simpa using h]
            simp only [legacyLoop, hr]
            rw [if_neg (by
              intro hcc
              exact hcond ⟨hcc.1, hcc.2.1⟩), hcand]
            exact ih r s

theorem dedupFirst_nil_iff (l : List ScrapedEntry) : dedupFirst [] l = [] ↔ l = [] := by
  constructor
  · intro h
    cases l with
    | nil => rfl
    | cons e rest =>
      simp [dedupFirst] at h
  · intro h
    subst h
    rfl

theorem fetch_ranking_page_ok (p : PageData) :
    fetch_ranking_page (.ok p) = pySort scrapeLe (dedupFirst [] (pageCandidates p)) := by
  simp only [fetch_ranking_page, primaryLoop_eq, List.nil_append]
  cases hc : primaryCandidates p.boxes with
  | nil =>
    rw [show dedupFirst [] ([] : List ScrapedEntry) = [] from rfl]
    simp only [List.isEmpty_nil, if_pos]
    cases hl : p.legacyItems with
    | none =>
      simp [pageCandidates, hc, hl, dedupFirst]
    | some items =>
      simp only [legacyLoop_eq, List.nil_append]
      simp [pageCandidates, hc, hl]
  | cons c cands =>
    have hne : ¬ (dedupFirst [] (c :: cands)).isEmpty := by
      simp [dedupFirst]
    simp only [hne, if_neg, Bool.not_eq_true]
    have hpc : pageCandidates p = c :: cands := by
      simp [pageCandidates, hc]
    rw [hpc]

theorem dedupFirst_not_seen (l : List ScrapedEntry) (seen : List String)
    (e : ScrapedEntry) (he : e ∈ dedupFirst seen l) : ¬ e.company ∈ seen := by
  induction l generalizing seen with
  | nil => cases he
  | cons x l ih =>
    simp only [dedupFirst] at he
    by_cases hx : x.company ∈ seen
    · rw [if_pos hx] at he
      exact ih seen he
    · rw [if_neg hx] at he
      rcases List.mem_cons.mp he with rfl | he2
      · exact hx
      · intro hmem
        exact ih (seen ++ [x.company]) he2 (List.mem_append_left _ hmem)

theorem dedupFirst_subset (l : List ScrapedEntry) (seen : List String)
    (e : ScrapedEntry) (he : e ∈ dedupFirst seen l) : e ∈ l := by
  induction l generalizing seen with
  | nil => cases he
  | cons x l ih =>
    simp only [dedupFirst] at he
    by_cases hx : x.company ∈ seen
    · rw [if_pos hx] at he
      exact List.mem_cons_of_mem _ (ih seen he)
    · rw [if_neg hx] at he
      rcases List.mem_cons.mp he with rfl | he2
      · exact List.mem_cons_self _ _
      · exact List.mem_cons_of_mem _ (ih _ he2)

theorem dedupFirst_company_nodup (l : List ScrapedEntry) (seen : List String) :
    ((dedupFirst seen l).map (fun e => e.company)).Nodup := by
  induction l generalizing seen with
  | nil => simp [dedupFirst]
  | cons x l ih =>
    simp only [dedupFirst]
    by_cases hx : x.company ∈ seen
    · rw [if_pos hx]
      exact ih seen
    · rw [if_neg hx]
      rw [List.map_cons, List.nodup_cons]
      refine ⟨?_, ih (seen ++ [x.company])⟩
      intro hmem
      rcases List.mem_map.mp hmem with ⟨e, he, hce⟩
      exact dedupFirst_not_seen l (seen ++ [x.company]) e he
        (List.mem_append_right _ (by simp [hce]))

theorem dedupFirst_find? (l : List ScrapedEntry) (seen : List String)
    (e : ScrapedEntry) (he : e ∈ dedupFirst seen l) :
    l.find? (fun x => x.company == e.company) = some e := by
  induction l generalizing seen with
  | nil => cases he
  | cons x l ih =>
    simp only [dedupFirst] at he
    by_cases hx : x.company ∈ seen
    · rw [if_pos hx] at he
      have hne : (x.company == e.company) = false := by
        refine beq_eq_false_iff_ne.mpr ?_
        intro hxe
        exact dedupFirst_not_seen l seen e he (hxe ▸ hx)
      simp only [List.find?, hne]
      exact ih seen he
    · rw [if_neg hx] at he
      rcases List.mem_cons.mp he with rfl | he2
      · simp [List.find?]
      · have hne : (x.company == e.company) = false := by
          refine beq_eq_false_iff_ne.mpr ?_
          intro hxe
          exact dedupFirst_not_seen l (seen ++ [x.company]) e he2
            (List.mem_append_right _ (by simp [hxe]))
        simp only [List.find?, hne]
        exact ih _ he2

theorem scrapeLe_trans (a b c : ScrapedEntry)
    (hab : scrapeLe a b = true) (hbc : scrapeLe b c = true) : scrapeLe a c = true := by
  simp only [scrapeLe, decide_eq_true_eq] at *
  rcases hab with h1 | ⟨h1, h1'⟩ <;> rcases hbc with h2 | ⟨h2, h2'⟩
  · exact Or.inl (h1.trans h2)
  · exact Or.inl (h2 ▸ h1)
  · exact Or.inl (h1 ▸ h2)
  · exact Or.inr ⟨h1.trans h2, h2'.trans h1'⟩

theorem scrapeLe_total (a b : ScrapedEntry) :
    scrapeLe a b = true ∨ scrapeLe b a = true := by
  simp only [scrapeLe, decide_eq_true_eq]
  rcases Nat.lt_trichotomy a.rank b.rank with h | h | h
  · exact Or.inl (Or.inl h)
  · rcases le_total (b.score.getD 0) (a.score.getD 0) with hs | hs
    · exact Or.inl (Or.inr ⟨h, hs⟩)
    · exact Or.inr (Or.inr ⟨h.symm, hs⟩)
  · exact Or.inr (Or.inl h)

/-- C5: the list the ranking-page fetch returns holds at most one entry per
company — for each returned entry, the first candidate with that company in
document order is the one kept — and is sorted by rank ascending with ties
broken by score (absent read as 0) descending. -/
theorem C5_dedup_sorted (p : PageData) :
    ((fetch_ranking_page (.ok p)).map (fun e => e.company)).Nodup ∧
    (fetch_ranking_page (.ok p)).Pairwise (fun a b =>
      a.rank < b.rank ∨ (a.rank = b.rank ∧ b.score.getD 0 ≤ a.score.getD 0)) ∧
    (∀ e ∈ fetch_ranking_page (.ok p),
      (pageCandidates p).find? (fun x => x.company == e.company) = some e) := by
  rw [fetch_ranking_page_ok]
  refine ⟨?_, ?_, ?_⟩
  · have hperm := (pySort_perm scrapeLe (dedupFirst [] (pageCandidates p))).map
      (fun e => e.company)
    exact hperm.nodup_iff.mpr (dedupFirst_company_nodup _ _)
  · have hp := pySort_pairwise scrapeLe scrapeLe_trans scrapeLe_total
      (dedupFirst [] (pageCandidates p))
    refine hp.imp ?_
    intro a b h
    simpa [scrapeLe, decide_eq_true_eq] using h
  · intro e he
    have he2 : e ∈ dedupFirst [] (pageCandidates p) :=
      (pySort_perm scrapeLe _).mem_iff.mp he
    exact dedupFirst_find? _ _ e he2

theorem firstTruthyQ_spec (l : List (Option ℚ)) (q : ℚ) (h : firstTruthyQ l = some q) :
    q ≠ 0 ∧ some q ∈ l := by
  induction l with
  | nil => cases h
  | cons c rest ih =>
    cases c with
    | none =>
      rcases ih (by simpa [firstTruthyQ] using h) with ⟨h1, h2⟩
      exact ⟨h1, List.mem_cons_of_mem _ h2⟩
    | some v =>
      by_cases hv : v ≠ 0
      · simp only [firstTruthyQ, if_pos hv] at h
        injection h with h
        subst h
        exact ⟨hv, List.mem_cons_self _ _⟩
      · simp only [firstTruthyQ, if_neg hv] at h
        rcases ih h with ⟨h1, h2⟩
        exact ⟨h1, List.mem_cons_of_mem _ h2⟩

theorem extract_ranking_data_spec (bx : RawBox) (d : ScrapedEntry)
    (h : extract_ranking_data bx = some d) :
    1 ≤ d.rank ∧ d.rank ≤ 100 ∧
    ∀ q, d.score = some q → q ≠ 0 ∧ (bx.score1 = some q ∨ bx.score2 = some q) := by
  unfold extract_ranking_data at h
  cases hr : firstTruthyNat [bx.rank1, bx.rank2, bx.rank3, bx.rank4] with
  | none => simp only [hr] at h; cases h
  | some rank =>
    simp only [hr] at h
    by_cases hb : rank < 1 ∨ 100 < rank
    · rw [if_pos hb] at h; cases h
    · rw [if_neg hb] at h
      cases hcs : firstTruthyStr [bx.company1, bx.company2, bx.company3] with
      | none => simp only [hcs] at h; cases h
      | some raw =>
        simp only [hcs] at h
        injection h with h
        subst h
        push_neg at hb
        refine ⟨hb.1, hb.2, ?_⟩
        intro q hq
        rcases firstTruthyQ_spec _ q hq with ⟨h1, h2⟩
        refine ⟨h1, ?_⟩
        rcases List.mem_cons.mp h2 with h3 | h3
        · exact Or.inl h3.symm
        · rcases List.mem_cons.mp h3 with h4 | h4
          · exact Or.inr h4.symm
          · cases h4

theorem mem_primaryCandidates (boxes : List (Except Unit RawBox)) (e : ScrapedEntry)
    (he : e ∈ primaryCandidates boxes) :
    e.company ≠ "" ∧ ∃ bx, Except.ok bx ∈ boxes ∧ extract_ranking_data bx = some e := by
  rcases List.mem_filterMap.mp he with ⟨b, hb, hfb⟩
  cases b with
  | error u => simp at hfb
  | ok bx =>
    cases hx : extract_ranking_data bx with
    | none => simp [hx] at hfb
    | some d =>
      simp only [hx] at hfb
      by_cases hne : d.company = ""
      · rw [if_neg (by simpa using hne)] at hfb
        cases hfb
      · rw [if_pos hne] at hfb
        injection hfb with hde
        subst hde
        exact ⟨hne, bx, hb, hx⟩

theorem mem_legacyCandidates (items : List (Except Unit (Option LegacyLi)))
    (e : ScrapedEntry) (he : e ∈ legacyCandidates items) :
    e.company ≠ "" ∧ 1 ≤ e.rank ∧ e.score = none := by
  rcases List.mem_filterMap.mp he with ⟨i, hi, hfi⟩
  cases i with
  | error u => simp at hfi
  | ok li? =>
    cases li? with
    | none => simp at hfi
    | some li =>
      cases hr : li.rank with
      | none => simp [hr] at hfi
      | some rk =>
        simp only [hr] at hfi
        by_cases hcond : rk ≠ 0 ∧ li.company ≠ ""
        · rw [if_pos hcond] at hfi
          injection hfi with hde
          subst hde
          exact ⟨hcond.2, Nat.one_le_iff_ne_zero.mpr hcond.1, rfl⟩
        · rw [if_neg hcond] at hfi
          cases hfi

/-- C10: every entry the ranking-page fetch returns has a non-empty company
name and a rank of at least 1, and when its score key is present the score
is strictly positive (scores parse from `(\d+\.?\d*)`, hence are
non-negative, and `0.0` is falsy so it is never stored); when the primary
box extraction produced the entries, ranks are additionally at most 100. -/
theorem C10_entry_invariants (p : PageData)
    (hscore : ∀ bx, Except.ok bx ∈ p.boxes →
      (∀ q, bx.score1 = some q → 0 ≤ q) ∧ (∀ q, bx.score2 = some q → 0 ≤ q)) :
    (∀ e ∈ fetch_ranking_page (.ok p),
      e.company ≠ "" ∧ 1 ≤ e.rank ∧ ∀ q, e.score = some q → 0 < q) ∧
    (¬ (primaryCandidates p.boxes).isEmpty →
      ∀ e ∈ fetch_ranking_page (.ok p), e.rank ≤ 100) := by
  have hmem : ∀ e ∈ fetch_ranking_page (.ok p), e ∈ pageCandidates p := by
    intro e he
    rw [fetch_ranking_page_ok] at he
    exact dedupFirst_subset _ _ e ((pySort_perm scrapeLe _).mem_iff.mp he)
  constructor
  · intro e he
    have hc := hmem e he
    by_cases hprim : (primaryCandidates p.boxes).isEmpty
    · unfold pageCandidates at hc
      rw [if_pos hprim] at hc
      cases hl : p.legacyItems with
      | none => rw [hl] at hc; cases hc
      | some items =>
        rw [hl] at hc
        rcases mem_legacyCandidates items e hc with ⟨h1, h2, h3⟩
        exact ⟨h1, h2, by intro q hq; rw [h3] at hq; cases hq⟩
    · unfold pageCandidates at hc
      rw [if_neg hprim] at hc
      rcases mem_primaryCandidates p.boxes e hc with ⟨h1, bx, hbx, hex⟩
      rcases extract_ranking_data_spec bx e hex with ⟨hr1, _, hsc⟩
      refine ⟨h1, hr1, ?_⟩
      intro q hq
      rcases hsc q hq with ⟨hq0, hq12⟩
      rcases hscore bx hbx with ⟨hs1, hs2⟩
      rcases hq12 with h | h
      · exact lt_of_le_of_ne (hs1 q h) (Ne.symm hq0)
      · exact lt_of_le_of_ne (hs2 q h) (Ne.symm hq0)
  · intro hprim e he
    have hc := hmem e he
    unfold pageCandidates at hc
    rw [if_neg hprim] at hc
    rcases mem_primaryCandidates p.boxes e hc with ⟨_, bx, _, hex⟩
    exact (extract_ranking_data_spec bx e hex).2.1

/-- C10 witness: the invariants instantiated on a one-box page. -/
theorem C10_entry_invariants_witness :
    (∀ e ∈ fetch_ranking_page (.ok ⟨[.ok ⟨some 1, none, none, none, some "ACME",
        none, none, none, none⟩], none⟩),
      e.company ≠ "" ∧ 1 ≤ e.rank ∧ ∀ q, e.score = some q → 0 < q) ∧
    (¬ (primaryCandidates [.ok ⟨some 1, none, none, none, some "ACME",
        none, none, none, none⟩]).isEmpty →
      ∀ e ∈ fetch_ranking_page (.ok ⟨[.ok ⟨some 1, none, none, none, some "ACME",
        none, none, none, none⟩], none⟩), e.rank ≤ 100) := by
  exact C10_entry_invariants _ (by
    intro bx hbx
    simp only [List.mem_singleton] at hbx
    injection hbx with hbx
    subst hbx
    refine ⟨?_, ?_⟩ <;> intro q hq <;> cases hq)

theorem zenHanTable_facts : ∀ p ∈ zenHanTable,
    zenHanTable.find? (fun q => q.1 == p.2) = none ∧
    isPySpace p.1 = false ∧ isPySpace p.2 = false := by decide

theorem zenToHan_idem (c : Char) : zenToHan (zenToHan c) = zenToHan c := by
  unfold zenToHan
  cases hf : zenHanTable.find? (fun q => q.1 == c) with
  | none => rw [hf]
  | some p =>
    rcases zenHanTable_facts p (List.mem_of_find?_eq_some hf) with ⟨hnone, _, _⟩
    rw [hnone]

theorem isPySpace_zenToHan (c : Char) : isPySpace (zenToHan c) = isPySpace c := by
  unfold zenToHan
  cases hf : zenHanTable.find? (fun q => q.1 == c) with
  | none => rfl
  | some p =>
    rcases zenHanTable_facts p (List.mem_of_find?_eq_some hf) with ⟨_, h1, h2⟩
    have hc : p.1 = c := by simpa using List.find?_some hf
    rw [h2, ← hc, h1]

theorem head?_dropWhile_not (p : Char → Bool) (l : List Char) :
    ∀ x, (l.dropWhile p).head? = some x → p x = false := by
  induction l with
  | nil => intro x h; cases h
  | cons c t ih =>
    intro x h
    by_cases hc : p c
    · rw [List.dropWhile_cons, if_pos hc] at h
      exact ih x h
    · rw [List.dropWhile_cons, if_neg hc] at h
      injection h with h
      subst h
      simpa using hc

theorem dropWhile_eq_self_of_head (p : Char → Bool) (l : List Char)
    (h : ∀ x, l.head? = some x → p x = false) : l.dropWhile p = l := by
  cases l with
  | nil => rfl
  | cons c t =>
    rw [List.dropWhile_cons, if_neg (by simp [h c rfl])]

theorem getLast?_dropWhile (p : Char → Bool) (l : List Char)
    (h : l.dropWhile p ≠ []) : (l.dropWhile p).getLast? = l.getLast? := by
  induction l with
  | nil => simp at h
  | cons c t ih =>
    by_cases hc : p c
    · rw [List.dropWhile_cons, if_pos hc] at h ⊢
      have ht : t ≠ [] := by
        intro he
        subst he
        simp [List.dropWhile] at h
      rw [ih h]
      cases t with
      | nil => exact absurd rfl ht
      | cons a b => rw [List.getLast?_cons_cons]
    · rw [List.dropWhile_cons, if_neg hc]

theorem stripChars_head_not_ws (l : List Char) :
    ∀ x, (stripChars l).head? = some x → isPySpace x = false := by
  intro x h
  unfold stripChars at h
  rw [List.head?_reverse] at h
  by_cases hk : (l.dropWhile isPySpace).reverse.dropWhile isPySpace = []
  · rw [hk] at h
    cases h
  · rw [getLast?_dropWhile isPySpace _ hk, List.getLast?_reverse] at h
    exact head?_dropWhile_not isPySpace l x h

theorem stripChars_getLast_not_ws (l : List Char) :
    ∀ x, (stripChars l).getLast? = some x → isPySpace x = false := by
  intro x h
  unfold stripChars at h
  rw [List.getLast?_reverse] at h
  exact head?_dropWhile_not isPySpace _ x h

theorem stripChars_eq_self (l : List Char)
    (hh : ∀ x, l.head? = some x → isPySpace x = false)
    (hl : ∀ x, l.getLast? = some x → isPySpace x = false) : stripChars l = l := by
  unfold stripChars
  rw [dropWhile_eq_self_of_head isPySpace l hh]
  rw [dropWhile_eq_self_of_head isPySpace l.reverse (by
    intro x h
    rw [List.head?_reverse] at h
    exact hl x h)]
  exact List.reverse_reverse l

theorem collapse_head_not_ws (c : Char) (l : List Char) (hc : isPySpace c = false) :
    collapse (c :: l) = c :: collapse l := by
  cases l with
  | nil => simp [collapse, hc]
  | cons c2 rest => simp [collapse, hc]

theorem collapse_ne_nil (l : List Char) (h : l ≠ []) : collapse l ≠ [] := by
  induction l using collapse.induct with
  | case1 => exact absurd rfl h
  | case2 c hc => simp [collapse, hc]
  | case3 c hc => simp [collapse, hc]
  | case4 c1 c2 rest h12 ih =>
    simp only [collapse, if_pos h12]
    exact ih (by simp)
  | case5 c1 c2 rest h12 h1 ih =>
    have h2 : isPySpace c2 = false := by
      revert h12
      simp [h1]
    simp [collapse, h1, h2]
  | case6 c1 c2 rest h12 h1 ih =>
    simp [collapse, h12, h1]

theorem collapse_ws_eq_space (l : List Char) :
    ∀ c ∈ collapse l, isPySpace c = true → c = ' ' := by
  induction l using collapse.induct with
  | case1 => intro c hc; cases hc
  | case2 c hc =>
    intro x hx _
    simp [collapse, hc] at hx
    exact hx
  | case3 c hc =>
    intro x hx hxs
    simp [collapse, hc] at hx
    subst hx
    exact absurd hxs (by simpa using hc)
  | case4 c1 c2 rest h12 ih =>
    intro x hx hxs
    simp only [collapse, if_pos h12] at hx
    exact ih x hx hxs
  | case5 c1 c2 rest h12 h1 ih =>
    intro x hx hxs
    simp only [collapse, if_neg h12, if_pos h1] at hx
    rcases List.mem_cons.mp hx with rfl | hx2
    · rfl
    · exact ih x hx2 hxs
  | case6 c1 c2 rest h12 h1 ih =>
    intro x hx hxs
    simp only [collapse, if_neg h12, if_neg h1] at hx
    rcases List.mem_cons.mp hx with rfl | hx2
    · exact absurd hxs (by simpa using h1)
    · exact ih x hx2 hxs

theorem collapse_mem_or_space (l : List Char) :
    ∀ c ∈ collapse l, c ∈ l ∨ c = ' ' := by
  induction l using collapse.induct with
  | case1 => intro c hc; cases hc
  | case2 c hc =>
    intro x hx
    simp [collapse, hc] at hx
    exact Or.inr hx
  | case3 c hc =>
    intro x hx
    simp [collapse, hc] at hx
    subst hx
    exact Or.inl (List.mem_singleton_self _)
  | case4 c1 c2 rest h12 ih =>
    intro x hx
    simp only [collapse, if_pos h12] at hx
    rcases ih x hx with h | h
    · exact Or.inl (List.mem_cons_of_mem _ h)
    · exact Or.inr h
  | case5 c1 c2 rest h12 h1 ih =>
    intro x hx
    simp only [collapse, if_neg h12, if_pos h1] at hx
    rcases List.mem_cons.mp hx with rfl | hx2
    · exact Or.inr rfl
    · rcases ih x hx2 with h | h
      · exact Or.inl (List.mem_cons_of_mem _ h)
      · exact Or.inr h
  | case6 c1 c2 rest h12 h1 ih =>
    intro x hx
    simp only [collapse, if_neg h12, if_neg h1] at hx
    rcases List.mem_cons.mp hx with rfl | hx2
    · exact Or.inl (List.mem_cons_self _ _)
    · rcases ih x hx2 with h | h
      · exact Or.inl (List.mem_cons_of_mem _ h)
      · exact Or.inr h

theorem collapse_chain (l : List Char) :
    List.Chain' (fun a b => isPySpace a = false ∨ isPySpace b = false) (collapse l) := by
  induction l using collapse.induct with
  | case1 => simp [collapse]
  | case2 c hc => simp [collapse, hc]
  | case3 c hc => simp [collapse, hc]
  | case4 c1 c2 rest h12 ih =>
    simp only [collapse, if_pos h12]
    exact ih
  | case5 c1 c2 rest h12 h1 ih =>
    have h2 : isPySpace c2 = false := by
      revert h12
      simp [h1]
    simp only [collapse, if_neg h12, if_pos h1]
    rw [collapse_head_not_ws c2 rest h2] at ih ⊢
    exact List.Chain'.cons (Or.inr h2) ih
  | case6 c1 c2 rest h12 h1 ih =>
    have hc1 : isPySpace c1 = false := by simpa using h1
    simp only [collapse, if_neg h12, if_neg h1]
    refine List.Chain'.cons' ih ?_
    intro y _
    exact Or.inl hc1

theorem collapse_getLast_not_ws (l : List Char)
    (h : ∀ x, l.getLast? = some x → isPySpace x = false) :
    ∀ x, (collapse l).getLast? = some x → isPySpace x = false := by
  induction l using collapse.induct with
  | case1 => intro x hx; cases hx
  | case2 c hc =>
    intro x hx
    exact absurd (h c rfl) (by simp [hc])
  | case3 c hc =>
    intro x hx
    simp [collapse, hc] at hx
    subst hx
    exact h _ rfl
  | case4 c1 c2 rest h12 ih =>
    intro x hx
    simp only [collapse, if_pos h12] at hx
    exact ih (by
      intro y hy
      apply h
      rwa [List.getLast?_cons_cons]) x hx
  | case5 c1 c2 rest h12 h1 ih =>
    intro x hx
    simp only [collapse, if_neg h12, if_pos h1] at hx
    have hne := collapse_ne_nil (c2 :: rest) (by simp)
    cases hk : collapse (c2 :: rest) with
    | nil => exact absurd hk hne
    | cons k1 k2 =>
      rw [hk, List.getLast?_cons_cons] at hx
      refine ih (by
        intro y hy
        apply h
        rwa [List.getLast?_cons_cons]) x ?_
      rw [hk]
      exact hx
  | case6 c1 c2 rest h12 h1 ih =>
    intro x hx
    simp only [collapse, if_neg h12, if_neg h1] at hx
    have hne := collapse_ne_nil (c2 :: rest) (by simp)
    cases hk : collapse (c2 :: rest) with
    | nil => exact absurd hk hne
    | cons k1 k2 =>
      rw [hk, List.getLast?_cons_cons] at hx
      refine ih (by
        intro y hy
        apply h
        rwa [List.getLast?_cons_cons]) x ?_
      rw [hk]
      exact hx

theorem collapse_eq_self (l : List Char)
    (hch : List.Chain' (fun a b => isPySpace a = false ∨ isPySpace b = false) l)
    (hws : ∀ c ∈ l, isPySpace c = true → c = ' ') : collapse l = l := by
  induction l using collapse.induct with
  | case1 => rfl
  | case2 c hc =>
    simp only [collapse, if_pos hc]
    rw [hws c (List.mem_singleton_self _) hc]
  | case3 c hc =>
    simp [collapse, hc]
  | case4 c1 c2 rest h12 ih =>
    have h12x : isPySpace c1 = true ∧ isPySpace c2 = true := by simpa using h12
    rcases h12x with ⟨hw1, hw2⟩
    rcases List.chain'_cons.mp hch with ⟨hr, _⟩
    rcases hr with h | h
    · exact absurd hw1 (by simp [h])
    · exact absurd hw2 (by simp [h])
  | case5 c1 c2 rest h12 h1 ih =>
    rcases List.chain'_cons.mp hch with ⟨_, hch2⟩
    simp only [collapse, if_neg h12, if_pos h1]
    rw [ih hch2 (fun c hc hcs => hws c (List.mem_cons_of_mem _ hc) hcs)]
    rw [hws c1 (List.mem_cons_self _ _) h1]
  | case6 c1 c2 rest h12 h1 ih =>
    rcases List.chain'_cons.mp hch with ⟨_, hch2⟩
    simp only [collapse, if_neg h12, if_neg h1]
    rw [ih hch2 (fun c hc hcs => hws c (List.mem_cons_of_mem _ hc) hcs)]

theorem normalize_pre_chars_head (l : List Char) :
    ∀ x, (collapse ((stripChars l).map zenToHan)).head? = some x → isPySpace x = false := by
  cases hs : stripChars l with
  | nil =>
    intro x hx
    simp [collapse] at hx
  | cons c rest =>
    have hc : isPySpace c = false := stripChars_head_not_ws l c (by rw [hs]; rfl)
    have hzc : isPySpace (zenToHan c) = false := by rw [isPySpace_zenToHan]; exact hc
    intro x hx
    rw [List.map_cons, collapse_head_not_ws (zenToHan c) _ hzc] at hx
    injection hx with hx
    subst hx
    exact hzc

theorem normalize_pre_chars_getLast (l : List Char) :
    ∀ x, (collapse ((stripChars l).map zenToHan)).getLast? = some x → isPySpace x = false := by
  apply collapse_getLast_not_ws
  intro x hx
  rw [List.getLast?_map] at hx
  cases hy : (stripChars l).getLast? with
  | none => rw [hy] at hx; cases hx
  | some y =>
    rw [hy] at hx
    injection hx with hx
    subst hx
    rw [isPySpace_zenToHan]
    exact stripChars_getLast_not_ws l y hy

theorem normalize_pre_chars_idem (l : List Char) :
    collapse ((stripChars (collapse ((stripChars l).map zenToHan))).map zenToHan) =
      collapse ((stripChars l).map zenToHan) := by
  rw [stripChars_eq_self _ (normalize_pre_chars_head l) (normalize_pre_chars_getLast l)]
  have hfix : ∀ c ∈ collapse ((stripChars l).map zenToHan), zenToHan c = c := by
    intro c hc
    rcases collapse_mem_or_space _ c hc with h | h
    · rcases List.mem_map.mp h with ⟨y, _, hy⟩
      rw [← hy]
      exact zenToHan_idem y
    · rw [h]
      decide
  rw [List.map_congr_left hfix]
  rw [show List.map (fun a : Char => a) (collapse (List.map zenToHan (stripChars l))) = collapse (List.map zenToHan (stripChars l)) from List.map_id' _]
  exact collapse_eq_self _ (collapse_chain _) (collapse_ws_eq_space _)

theorem normalize_pre_idem (s : String) :
    normalize_pre (normalize_pre s) = normalize_pre s := by
  unfold normalize_pre
  exact congrArg String.mk (normalize_pre_chars_idem s.data)

/-- C4 counterexample: idempotence fails for an arbitrary loaded alias table,
because an alias value is returned without being normalized. With the table
`{"A": "Ｂ"}` (a full-width value), normalizing "A" yields "Ｂ", but
normalizing "Ｂ" folds it to half-width "B". -/
theorem C4_counterexample :
    normalize_company_name [("A", "Ｂ")]
        (normalize_company_name [("A", "Ｂ")] "A") ≠
      normalize_company_name [("A", "Ｂ")] "A" := by decide

/-- C4 (amended): with the alias table the repository actually loads — the
built-in default, since no `config/company_aliases.json` is shipped —
`normalize_company_name` is idempotent on every input string. -/
theorem C4_normalize_idem (x : String) :
    normalize_company_name COMPANY_ALIASES (normalize_company_name COMPANY_ALIASES x) =
      normalize_company_name COMPANY_ALIASES x := by
  have hvals : ∀ p ∈ DEFAULT_COMPANY_ALIASES,
      normalize_company_name COMPANY_ALIASES p.2 = p.2 := by decide
  by_cases hx : x = ""
  · subst hx
    rfl
  · cases hf1 : COMPANY_ALIASES.find? (fun p => p.1 == x) with
    | some p =>
      have hx1 : normalize_company_name COMPANY_ALIASES x = p.2 := by
        simp only [normalize_company_name, if_neg hx, hf1]
      rw [hx1]
      exact hvals p (List.mem_of_find?_eq_some hf1)
    | none =>
      cases hf2 : COMPANY_ALIASES.find? (fun p => p.1 == normalize_pre x) with
      | some p =>
        have hx1 : normalize_company_name COMPANY_ALIASES x = p.2 := by
          simp only [normalize_company_name, if_neg hx, hf1, hf2]
        rw [hx1]
        exact hvals p (List.mem_of_find?_eq_some hf2)
      | none =>
        have hx1 : normalize_company_name COMPANY_ALIASES x = normalize_pre x := by
          simp only [normalize_company_name, if_neg hx, hf1, hf2]
        rw [hx1]
        by_cases hn : normalize_pre x = ""
        · rw [hn]
          rfl
        · simp only [normalize_company_name, if_neg hn, normalize_pre_idem, hf2]
